import Mathlib

/-!
Verification development for the `serde_result_line` crate: a shallow
embedding of its data model (`lib.rs`), its nom-based line parser (`de.rs`)
and its serde serializer (`ser.rs`), together with theorems settling the
spec claims.

Modelling conventions:
* Rust `&str` input is modelled as `List Char`; the public entry points take
  and return `String`.
* `f64` is modelled by `FloatVal`: the exact rational value of the parsed
  literal, plus `nan` / `inf` markers (nom's `double` recognises those
  tokens).  No claim below depends on IEEE rounding, so the exact-rational
  model is used throughout.
* nom's error distinction between recoverable `Err::Error` and unrecoverable
  `Err::Failure` (produced by `cut`) is kept: `PRes.err` vs `PRes.fail`.
  `alt` backtracks only on `err`, exactly as nom's `alt` does.
* Machine integers are `Int` with the `i64` bounds checked explicitly where
  the source checks them (`nom::character::complete::i64` errors on
  overflow; `usize as isize` wraps). 64-bit targets are assumed, matching
  `isize = i64`, `usize = u64`.
-/

set_option maxRecDepth 16384

/-- `char::is_whitespace` from Rust: the Unicode `White_Space` property.
These are exactly the 25 `White_Space` code points. -/
def rustIsWhitespace (c : Char) : Bool :=
  c.toNat ∈ [0x9, 0xA, 0xB, 0xC, 0xD, 0x20, 0x85, 0xA0, 0x1680,
    0x2000, 0x2001, 0x2002, 0x2003, 0x2004, 0x2005, 0x2006, 0x2007,
    0x2008, 0x2009, 0x200A, 0x2028, 0x2029, 0x202F, 0x205F, 0x3000]

/-- `t.contains(|c: char| c.is_whitespace())` on a Rust `String`. -/
def hasWs (s : String) : Bool := s.data.any rustIsWhitespace

/-- The value carried by the `Float` variant.  `num q` is the exact rational
value of the recognised literal (the source stores the `f64` obtained from
it); `nan` / `inf` model the exception tokens accepted by nom's `double`. -/
inductive FloatVal where
  | num (q : ℚ)
  | nan
  | inf
deriving DecidableEq, Repr

/-- `enum ResultItem` from `lib.rs`.  The source's `Named(Box<NamedItem>)`
carries a boxed two-field struct; the box is inlined here as the two fields
`name` and `value`. -/
inductive ResultItem where
  | Named (name value : ResultItem)
  | Integer (n : Int)
  | Float (v : FloatVal)
  | Boolean (b : Bool)
  | Character (c : Char)
  | Text (t : String)
  | Empty
deriving DecidableEq, Repr

/-- `struct NamedItem` from `lib.rs` (the payload of `ResultItem::Named`). -/
structure NamedItem where
  name : ResultItem
  value : ResultItem
deriving DecidableEq, Repr

/-- `ResultItem::is_empty`. -/
def ResultItem.is_empty : ResultItem → Bool
  | .Empty => true
  | _ => false

/-! ### Decimal rendering of integers (Rust `Display` for `isize`) -/

/-- Decimal digit characters of `n`, most significant first, by repeated
division; `fuel` only bounds the recursion (any `fuel ≥ n` is enough). -/
def natDigitsAux : Nat → Nat → List Char
  | 0, _ => []
  | fuel + 1, n =>
    if n = 0 then [] else natDigitsAux fuel (n / 10) ++ [Char.ofNat ('0'.toNat + n % 10)]

/-- Decimal digits of a natural number, as Rust's `Display` renders it. -/
def natToDigits (n : Nat) : List Char :=
  if n = 0 then ['0'] else natDigitsAux n n

/-- Rust's `Display` for `isize` (used by `write!(f, "{item}")` on
`ResultItem::Integer`). -/
def intDisplay (n : Int) : List Char :=
  if n < 0 then '-' :: natToDigits n.natAbs else natToDigits n.natAbs

/-- Numeric value of a list of decimal digit characters. -/
def digitsVal (ds : List Char) : Nat :=
  ds.foldl (fun a c => 10 * a + (c.toNat - '0'.toNat)) 0

/-! ### Rendering of floats

Rust prints an `f64` as the shortest decimal string that reads back to the
same value; on every value arising from the short literals in this
development that is exactly the terminating decimal expansion, which is what
is produced here (integral values print without `.0`, as Rust does).  No
claim below depends on float rendering. -/

/-- Smallest `k` with `den ∣ 10 ^ k`, if one exists below the search bound. -/
def decExpLen (den : Nat) : Option Nat :=
  (List.range (den + 1)).find? (fun k => 10 ^ k % den = 0)

/-- Exact decimal rendering of a nonnegative rational. -/
def posRatDisplay (q : ℚ) : List Char :=
  match decExpLen q.den with
  | Option.none => natToDigits q.num.natAbs ++ '/' :: natToDigits q.den
  | Option.some k =>
    if k = 0 then natToDigits q.num.natAbs
    else
      let scaled := q.num.natAbs * 10 ^ k / q.den
      natToDigits (scaled / 10 ^ k) ++ '.' ::
        (fun ds => (List.replicate (k - ds.length) '0') ++ ds) (natToDigits (scaled % 10 ^ k))

/-- Rust's `Display` for `f64`, on the `FloatVal` model. -/
def floatDisplay : FloatVal → List Char
  | .nan => "NaN".data
  | .inf => "inf".data
  | .num q => if q < 0 then '-' :: posRatDisplay (-q) else posRatDisplay q

/-! ### `Display` for `ResultItem` / `NamedItem` (`lib.rs`) -/

/-- `Display for ResultItem` together with the inlined
`Display for NamedItem` for the `Named` variant: the key, then `=`, then the
value, where a side that is a `Text` containing whitespace is wrapped in
double quotes and every other side is rendered plainly. -/
def ResultItem.display : ResultItem → String
  | .Named name value =>
    let nd := name.display
    let vd := value.display
    (match name with
     | .Text t => if hasWs t then "\"" ++ t ++ "\"" else nd
     | _ => nd) ++ "=" ++
    (match value with
     | .Text t => if hasWs t then "\"" ++ t ++ "\"" else vd
     | _ => vd)
  | .Integer n => ⟨intDisplay n⟩
  | .Float v => ⟨floatDisplay v⟩
  | .Boolean b => if b then "true" else "false"
  | .Character c => ⟨[c]⟩
  | .Text t => t
  | .Empty => ""

/-- `Display for NamedItem` (delegated to the `Named` rendering above, which
is its exact inline). -/
def NamedItem.display (i : NamedItem) : String :=
  (ResultItem.Named i.name i.value).display

example : (NamedItem.mk (.Text "a key") (.Integer 12)).display = "\"a key\"=12" := by decide
example : (NamedItem.mk (.Text "a") (.Character ' ')).display = "a= " := by decide
example : (ResultItem.Integer (-123423904)).display = "-123423904" := by rfl

/-! ### The nom parser model (`de.rs`)

A parser takes the remaining input and either succeeds with the rest of the
input and a value, fails recoverably (`err`, nom's `Err::Error` — `alt`
tries the next branch) or fails unrecoverably (`fail`, nom's `Err::Failure`
as produced by `cut` — `alt` aborts). -/
inductive PRes (α : Type) where
  | ok (rest : List Char) (val : α)
  | err
  | fail
deriving Repr, DecidableEq

def P (α : Type) : Type := List Char → PRes α

def PRes.isOk : PRes α → Bool
  | .ok _ _ => true
  | _ => false

/-- nom `char(c)`. -/
def pchar (c : Char) : P Char := fun input =>
  match input with
  | x :: xs => if x = c then .ok xs c else .err
  | [] => .err

/-- nom `tag(t)`. -/
def ptag (t : List Char) : P (List Char) := fun input =>
  if t.isPrefixOf input then .ok (input.drop t.length) t else .err

/-- Case-insensitive prefix test backing nom's `tag_no_case`. -/
def noCaseIsPrefix (t input : List Char) : Bool :=
  decide (t.length ≤ input.length) &&
    ((input.take t.length).zip t).all fun p => p.1.toLower == p.2.toLower

/-- nom `tag_no_case(t)`. -/
def ptag_no_case (t : List Char) : P (List Char) := fun input =>
  if noCaseIsPrefix t input then .ok (input.drop t.length) (input.take t.length) else .err

def isSpaceTab (c : Char) : Bool := c == ' ' || c == '\t'

/-- nom `character::complete::space1`: one or more spaces/tabs. -/
def space1 : P (List Char) := fun input =>
  let s := input.takeWhile isSpaceTab
  if s.isEmpty then .err else .ok (input.dropWhile isSpaceTab) s

/-- nom `character::complete::digit1`: one or more ASCII digits. -/
def digit1 : P (List Char) := fun input =>
  let s := input.takeWhile Char.isDigit
  if s.isEmpty then .err else .ok (input.dropWhile Char.isDigit) s

/-- First segment of input strictly before the first occurrence of `c`
(and the remainder starting at that occurrence), if `c` occurs. -/
def takeUntil1Aux (c : Char) : List Char → Option (List Char × List Char)
  | [] => Option.none
  | x :: xs =>
    if x = c then Option.some ([], x :: xs)
    else (takeUntil1Aux c xs).map fun p => (x :: p.1, p.2)

/-- nom `take_until1` with a one-character pattern (the source only uses the
patterns `"` and `=`): errors when the pattern does not occur or when the
matched prefix would be empty. -/
def take_until1 (c : Char) : P (List Char) := fun input =>
  match takeUntil1Aux c input with
  | Option.some ([], _) => .err
  | Option.some (t, r) => .ok r t
  | Option.none => .err

/-- nom `alt` of two parsers: backtracks on `err` only. -/
def palt (p q : P α) : P α := fun input =>
  match p input with
  | .ok r a => .ok r a
  | .err => q input
  | .fail => .fail

def pmap (p : P α) (f : α → β) : P β := fun input =>
  match p input with
  | .ok r a => .ok r (f a)
  | .err => .err
  | .fail => .fail

def pbind (p : P α) (f : α → P β) : P β := fun input =>
  match p input with
  | .ok r a => f a r
  | .err => .err
  | .fail => .fail

/-- nom `peek`: run `p` but consume nothing. -/
def ppeek (p : P α) : P α := fun input =>
  match p input with
  | .ok _ a => .ok input a
  | .err => .err
  | .fail => .fail

/-- nom `terminated`. -/
def pterminated (p : P α) (q : P β) : P α :=
  pbind p fun a => pmap q fun _ => a

/-- nom `preceded`. -/
def ppreceded (p : P α) (q : P β) : P β :=
  pbind p fun _ => q

/-- nom `delimited`. -/
def pdelimited (p : P α) (q : P β) (r : P γ) : P β :=
  pbind p fun _ => pbind q fun b => pmap r fun _ => b

/-- nom `separated_pair`. -/
def pseparated_pair (p : P α) (sep : P β) (q : P γ) : P (α × γ) :=
  pbind p fun a => pbind sep fun _ => pmap q fun c => (a, c)

/-- nom's `sign`: an optional leading `+`/`-`; `true` means nonnegative. -/
def splitSign : List Char → Bool × List Char
  | '+' :: cs => (true, cs)
  | '-' :: cs => (false, cs)
  | cs => (true, cs)

def i64Max : Int := 2 ^ 63 - 1
def i64Min : Int := -(2 ^ 63)

/-- One accumulation step of `nom::character::complete::i64`: multiply by
ten and add (for negatives, subtract) the next digit. -/
def i64step (pos : Bool) (v : Int) (c : Char) : Int :=
  if pos then 10 * v + (c.toNat - '0'.toNat : Int) else 10 * v - (c.toNat - '0'.toNat : Int)

/-- Digit-accumulation loop of `nom::character::complete::i64`: consume
decimal digits, accumulating with a checked multiply-add (checked subtract
for negative numbers); overflow of the `i64` range is a hard parse error,
a non-digit stops the loop. -/
def i64go (pos : Bool) : Int → List Char → PRes Int
  | v, [] => .ok [] v
  | v, c :: cs =>
    if c.isDigit then
      if i64Min ≤ i64step pos v c ∧ i64step pos v c ≤ i64Max then i64go pos (i64step pos v c) cs
      else .err
    else .ok (c :: cs) v

/-- `nom::character::complete::i64`: optional sign, then at least one digit
(a leading non-digit is an error), then the accumulation loop. -/
def pi64 : P Int := fun input =>
  let s := splitSign input
  match s.2 with
  | [] => .err
  | c :: cs => if c.isDigit then i64go s.1 0 (c :: cs) else .err

/-- Exact rational value of a recognised float literal with integer digits
`ds`, fraction digits `fs` and exponent digits `es` (`epos` is the
exponent's sign). -/
def floatVal (pos : Bool) (ds fs : List Char) (epos : Bool) (es : List Char) : ℚ :=
  let sign : Int := if pos then 1 else -1
  let mant : Int := sign * (digitsVal ds * 10 ^ fs.length + digitsVal fs)
  if epos then mkRat (mant * 10 ^ digitsVal es) (10 ^ fs.length)
  else mkRat mant (10 ^ fs.length * 10 ^ digitsVal es)

/-- Optional exponent part of nom's `recognize_float`:
`opt(tuple((e/E, opt(sign), cut(digit1))))` — note the `cut`: an exponent
marker not followed by digits is an unrecoverable failure. -/
def expPart (pos : Bool) (ds fs : List Char) : P ℚ := fun input =>
  match input with
  | c :: rest =>
    if c = 'e' ∨ c = 'E' then
      let s := splitSign rest
      match digit1 s.2 with
      | .ok r3 es => .ok r3 (floatVal pos ds fs s.1 es)
      | _ => .fail
    else .ok input (floatVal pos ds fs true [])
  | [] => .ok input (floatVal pos ds fs true [])

/-- Optional fraction part after the integer digits of `recognize_float`:
`opt(pair(char('.'), opt(digit1)))` followed by the exponent part. -/
def fracPart (pos : Bool) (ds : List Char) : P ℚ := fun i2 =>
  match i2 with
  | '.' :: i3 =>
    (match digit1 i3 with
     | .ok i4 fs => expPart pos ds fs i4
     | _ => expPart pos ds [] i3)
  | _ => expPart pos ds [] i2

/-- nom `recognize_float` (value-level): optional sign, then either
`digit1 (('.') (digit1)?)?` or `'.' digit1`, then the optional exponent. -/
def recognize_float : P ℚ := fun input =>
  let s := splitSign input
  match digit1 s.2 with
  | .ok i2 ds => fracPart s.1 ds i2
  | _ =>
    match s.2 with
    | '.' :: i3 =>
      (match digit1 i3 with
       | .ok i4 fs => expPart s.1 [] fs i4
       | _ => .err)
    | _ => .err

/-- `nom::number::complete::double`: `recognize_float_or_exceptions`
(the float grammar, else the case-insensitive tokens `nan`, `infinity`,
`inf`) followed by `str::parse::<f64>` on the recognised slice, which
succeeds on every recognised shape. -/
def pdouble : P FloatVal := fun input =>
  match recognize_float input with
  | .ok r q => .ok r (.num q)
  | .fail => .fail
  | .err =>
    match ptag_no_case ("nan".data) input with
    | .ok r _ => .ok r .nan
    | _ =>
      match ptag_no_case ("infinity".data) input with
      | .ok r _ => .ok r .inf
      | _ =>
        match ptag_no_case ("inf".data) input with
        | .ok r _ => .ok r .inf
        | _ => .err

/-- `parse_delimited_string` from `de.rs`. -/
def parse_delimited_string : P (List Char) :=
  pdelimited (pchar '"') (take_until1 '"') (pchar '"')

/-- `parse_key` from `de.rs`. -/
def parse_key : P (List Char) :=
  palt parse_delimited_string (take_until1 '=')

/-- `parse_value` from `de.rs`: the five alternatives in source order. -/
def parse_value : P ResultItem :=
  palt (pmap parse_delimited_string fun s => .Text ⟨s⟩)
  (palt (pmap (palt (ptag ("true".data)) (ptag ("false".data)))
          fun s => .Boolean (s == "true".data))
  (palt (pmap (pterminated pi64 (ppeek space1)) fun n => .Integer n)
  (palt (pmap pdouble fun v => .Float v)
        (pmap parse_key fun s => .Text ⟨s⟩))))

/-- `parse_named_item` from `de.rs`. -/
def parse_named_item : P (String × ResultItem) :=
  pmap (pseparated_pair parse_key (pchar '=') parse_value) fun p => (⟨p.1⟩, p.2)

/-- One iteration of the pair loop in `parse_result_line`:
`preceded(space1, parse_named_item)`. -/
def namedItemStep : P (String × ResultItem) :=
  ppreceded space1 parse_named_item

/-- The `iter::from_fn` pair loop of `parse_result_line`: repeat
`namedItemStep` until it fails, collecting the pairs.  The fuel only bounds
the recursion; each successful step consumes at least the character eaten by
`space1`, so `input.length + 1` is always enough (proved below). -/
def parsePairsF : Nat → List Char → List (String × ResultItem)
  | 0, _ => []
  | fuel + 1, input =>
    match namedItemStep input with
    | .ok rest pair => pair :: parsePairsF fuel rest
    | _ => []

def parsePairs (input : List Char) : List (String × ResultItem) :=
  parsePairsF (input.length + 1) input

/-- `from_string` (via `parse_result_line` and `Finish`): the mandatory
`RESULT` tag, then the pair loop; whatever input the loop leaves is
discarded.  The generic `Target: FromIterator` container is modelled by the
free choice, the list of pairs in parse order. -/
def from_string (s : String) : Option (List (String × ResultItem)) :=
  match ptag ("RESULT".data) s.data with
  | .ok rest _ => Option.some (parsePairs rest)
  | _ => Option.none

example :
    from_string "RESULT a=\"hello world\" b=-123423904 \"a key\"=8123 nowhitespace=8123.23 d=true" =
      Option.some [("a", .Text "hello world"), ("b", .Integer (-123423904)),
        ("a key", .Integer 8123), ("nowhitespace", .Float (.num (mkRat 812323 100))),
        ("d", .Boolean true)] := by decide

example : from_string "RESULT a b=5" = Option.some [("a b", .Float (.num 5))] := by decide
example : from_string "RESULT a=hello" = Option.some [] := by decide
example : from_string "result a=1" = Option.none := by decide
example : parse_value ("hello".data) = PRes.err := by decide
example : parse_value ("5e".data) = PRes.fail := by decide
example : parse_value ("nana b=1".data) = PRes.ok ("a b=1".data) (.Float .nan) := by decide

/-! ### The serde serializer model (`ser.rs`)

`SVal` is the tree of visitor calls the external serde framework makes for a
value: one constructor per `Serializer` method of `ResultLineStructurizer`.
The signed widths `i8..i64` all serialize as `eat(v as isize)` and the
unsigned widths `u8..u64` as `eat(v as usize)`, so one constructor models
each family.  `seq`, `tuple`, `tuple struct`, `tuple variant` and
`struct variant` are rejected before their contents are visited, so those
constructors carry no payload. -/

mutual
inductive SVal where
  | bool (b : Bool)
  | int (n : Int)
  | uint (n : Nat)
  | f64 (v : FloatVal)
  | char (c : Char)
  | str (s : String)
  | none
  | some (v : SVal)
  | unit
  | unitStruct
  | unitVariant
  | newtypeStruct (v : SVal)
  | newtypeVariant (v : SVal)
  | map (entries : SEntries)
  | strct (fields : SEntries)
  | seq
  | tuple
  | tupleStruct
  | tupleVariant
  | structVariant

inductive SEntries where
  | nil
  | cons (key val : SVal) (rest : SEntries)
end

def entriesOfList : List (SVal × SVal) → SEntries
  | [] => .nil
  | (k, v) :: rest => .cons k v (entriesOfList rest)

/-- `enum Erra` from `ser.rs`. -/
inductive Erra where
  | Generic (msg : String)
  | Unsupported (shape : String)
  | UnnamedItem
deriving DecidableEq, Repr

/-- `struct ResultLineStructurizer` from `ser.rs`. -/
structure Structurizer where
  current_name : Option ResultItem
  output : List NamedItem
deriving DecidableEq, Repr

/-- `ResultLineStructurizer::eat`: `current_name.take()` — wrap the value
with the pending name if there is one (clearing it), else pass it through. -/
def Structurizer.eat (st : Structurizer) (t : ResultItem) : ResultItem × Structurizer :=
  match st.current_name with
  | Option.some name => (.Named name t, { st with current_name := Option.none })
  | Option.none => (t, st)

/-- `usize as isize` on a 64-bit target: two's-complement reinterpretation
(values `≥ 2^63` become negative). -/
def usizeAsIsize (n : Nat) : Int :=
  if n % 2 ^ 64 < 2 ^ 63 then ((n % 2 ^ 64 : Nat) : Int)
  else ((n % 2 ^ 64 : Nat) : Int) - 2 ^ 64

/-- `impl From<usize> for ResultItem`: `Self::Integer(value as isize)`. -/
def resultItemFromUsize (n : Nat) : ResultItem :=
  .Integer (usizeAsIsize n)

mutual
/-- The `Serializer` impl for `&mut ResultLineStructurizer`, one arm per
method (`serialize_bool` … `serialize_struct_variant`).  `serialize_none`,
`serialize_unit_struct` and `serialize_unit_variant` all delegate to
`serialize_unit`; `serialize_some`, `serialize_newtype_struct` and
`serialize_newtype_variant` serialize their payload transparently; maps and
structs run their entries through the `SerializeMap` impl and their `end`
returns `Empty`. -/
def serializeVal (st : Structurizer) : SVal → Except Erra (ResultItem × Structurizer)
  | .bool b => .ok (st.eat (.Boolean b))
  | .int n => .ok (st.eat (.Integer n))
  | .uint n => .ok (st.eat (resultItemFromUsize n))
  | .f64 v => .ok (st.eat (.Float v))
  | .char c => .ok (st.eat (.Character c))
  | .str s => .ok (st.eat (.Text s))
  | .none => .ok (st.eat .Empty)
  | .some v => serializeVal st v
  | .unit => .ok (st.eat .Empty)
  | .unitStruct => .ok (st.eat .Empty)
  | .unitVariant => .ok (st.eat .Empty)
  | .newtypeStruct v => serializeVal st v
  | .newtypeVariant v => serializeVal st v
  | .map entries =>
    (match serializeEntries st entries with
     | .ok st' => .ok (.Empty, st')
     | .error e => .error e)
  | .strct fields =>
    (match serializeEntries st fields with
     | .ok st' => .ok (.Empty, st')
     | .error e => .error e)
  | .seq => .error (.Unsupported "seq")
  | .tuple => .error (.Unsupported "tuple")
  | .tupleStruct => .error (.Unsupported "tuple struct")
  | .tupleVariant => .error (.Unsupported "tuple variant")
  | .structVariant => .error (.Unsupported "struct variant")

/-- The `SerializeMap` impl (also used by `SerializeStruct::serialize_field`
via `serialize_entry`): `serialize_key` stores the encoded key into
`current_name`; `serialize_value` encodes the value and then pushes the
resulting `NamedItem` unless its value is `Empty` (dropped), erroring with
`UnnamedItem` if no `Named` was produced. -/
def serializeEntries (st : Structurizer) : SEntries → Except Erra Structurizer
  | .nil => .ok st
  | .cons k v rest =>
    (match serializeVal st k with
     | .error e => .error e
     | .ok (rk, st1) =>
       (match serializeVal { st1 with current_name := Option.some rk } v with
        | .error e => .error e
        | .ok (rv, st3) =>
          (match rv with
           | .Named name value =>
             if value.is_empty = false then
               serializeEntries { st3 with output := st3.output ++ [⟨name, value⟩] } rest
             else serializeEntries st3 rest
           | _ => .error .UnnamedItem)))
end

instance {ε α : Type} [DecidableEq ε] [DecidableEq α] : DecidableEq (Except ε α)
  | .ok a, .ok b =>
    if h : a = b then isTrue (by rw [h]) else isFalse (by intro he; cases he; exact h rfl)
  | .ok _, .error _ => isFalse (by intro h; cases h)
  | .error _, .ok _ => isFalse (by intro h; cases h)
  | .error e, .error f =>
    if h : e = f then isTrue (by rw [h]) else isFalse (by intro he; cases he; exact h rfl)

/-- `to_string` from `ser.rs`: run the serializer from an empty state and
join `"RESULT"` with a space before each rendered item of `output`. -/
def to_string (v : SVal) : Except Erra String :=
  match serializeVal ⟨Option.none, []⟩ v with
  | .error e => .error e
  | .ok (_, st) => .ok (st.output.foldl (fun s item => s ++ " " ++ item.display) "RESULT")

example :
    to_string (.map (entriesOfList
      [(.str "a", .str "hello world"), (.str "b", .int (-123423904)),
       (.str "map key", .uint 100), (.str "d", .bool true)])) =
      .ok "RESULT a=\"hello world\" b=-123423904 \"map key\"=100 d=true" := by decide

example : to_string (.int 5) = .ok "RESULT" := by decide
example : to_string .seq = .error (.Unsupported "seq") := by decide
example :
    to_string (.strct (entriesOfList [(.str "f", .none), (.str "g", .unitVariant)])) =
      .ok "RESULT" := by decide


/-! ### Consumption lemmas

Every parser returns a suffix of its input, and `space1` consumes at least
one character; this justifies the fuel bound used by `parsePairs`. -/

def Shrinks (p : P α) : Prop :=
  ∀ input rest a, p input = .ok rest a → rest.length ≤ input.length

theorem shrinks_pchar (c : Char) : Shrinks (pchar c) := by
  intro input rest a h
  unfold pchar at h
  split at h
  · split at h
    · cases h; simp
    · cases h
  · cases h

theorem shrinks_ptag (t : List Char) : Shrinks (ptag t) := by
  intro input rest a h
  unfold ptag at h
  split at h
  · cases h; simp
  · cases h

theorem shrinks_ptag_no_case (t : List Char) : Shrinks (ptag_no_case t) := by
  intro input rest a h
  unfold ptag_no_case at h
  split at h
  · cases h; simp
  · cases h

theorem dropWhile_length_le (p : Char → Bool) (l : List Char) :
    (l.dropWhile p).length ≤ l.length :=
  (List.dropWhile_sublist (p := p) (l := l)).length_le

theorem dropWhile_length_lt (p : Char → Bool) (l : List Char)
    (h : (l.takeWhile p).isEmpty = false) : (l.dropWhile p).length < l.length := by
  cases l with
  | nil => simp at h
  | cons x xs =>
    cases hp : p x with
    | false => simp [List.takeWhile_cons, hp] at h
    | true =>
      rw [List.dropWhile_cons_of_pos hp]
      exact Nat.lt_succ_of_le (dropWhile_length_le p xs)

theorem shrinks_space1 : Shrinks space1 := by
  intro input rest a h
  simp only [space1] at h
  split at h
  · cases h
  · cases h; exact dropWhile_length_le _ _

theorem space1_consumes (input rest : List Char) (a : List Char)
    (h : space1 input = .ok rest a) : rest.length < input.length := by
  simp only [space1] at h
  split at h
  · cases h
  · next hne => cases h; exact dropWhile_length_lt _ _ (by simpa using hne)

theorem shrinks_digit1 : Shrinks digit1 := by
  intro input rest a h
  simp only [digit1] at h
  split at h
  · cases h
  · cases h; exact dropWhile_length_le _ _

theorem takeUntil1Aux_spec (c : Char) (input t r : List Char)
    (h : takeUntil1Aux c input = Option.some (t, r)) : input = t ++ r := by
  induction input generalizing t r with
  | nil => simp [takeUntil1Aux] at h
  | cons x xs ih =>
    simp only [takeUntil1Aux] at h
    split at h
    · cases h; rfl
    · cases haux : takeUntil1Aux c xs with
      | none => rw [haux] at h; cases h
      | some p =>
        rw [haux] at h
        simp only [Option.map_some'] at h
        cases h
        have := ih p.1 p.2 (by rw [haux])
        simp [this]

theorem shrinks_take_until1 (c : Char) : Shrinks (take_until1 c) := by
  intro input rest a h
  unfold take_until1 at h
  split at h
  · cases h
  · next heq =>
    cases h
    have hspec := takeUntil1Aux_spec c input a rest heq
    subst hspec
    simp
  · cases h

theorem splitSign_eq (input : List Char) :
    splitSign input =
      if input.head? = Option.some '+' then (true, input.tail)
      else if input.head? = Option.some '-' then (false, input.tail)
      else (true, input) := by
  cases input with
  | nil => rfl
  | cons x xs =>
    by_cases h1 : x = '+'
    · subst h1; rfl
    · by_cases h2 : x = '-'
      · subst h2; rfl
      · have hs : splitSign (x :: xs) = (true, x :: xs) := by
          rw [splitSign.eq_def]
          split <;> simp_all
        simp [hs, h1, h2]

theorem splitSign_suffix (input : List Char) :
    (splitSign input).2.length ≤ input.length := by
  rw [splitSign_eq]
  split
  · simp [List.length_tail]
  · split
    · simp [List.length_tail]
    · simp

theorem shrinks_i64go (pos : Bool) : ∀ (input : List Char) (v : Int) (rest : List Char) a,
    i64go pos v input = .ok rest a → rest.length ≤ input.length := by
  intro input
  induction input with
  | nil => intro v rest a h; simp only [i64go] at h; cases h; simp
  | cons x xs ih =>
    intro v rest a h
    simp only [i64go] at h
    split at h
    · split at h
      · exact Nat.le_succ_of_le (ih _ _ _ h)
      · cases h
    · cases h; simp

theorem shrinks_pi64 : Shrinks pi64 := by
  intro input rest a h
  simp only [pi64] at h
  split at h
  · cases h
  · next c cs heq =>
    split at h
    · have h1 := shrinks_i64go _ _ _ _ _ h
      have h2 := splitSign_suffix input
      rw [heq] at h2
      exact h1.trans h2
    · cases h

theorem shrinks_expPart (pos : Bool) (ds fs : List Char) : Shrinks (expPart pos ds fs) := by
  intro input rest a h
  simp only [expPart] at h
  split at h
  · next c cs =>
    split at h
    · split at h
      · next r3 es hd =>
        cases h
        exact Nat.le_succ_of_le ((shrinks_digit1 _ _ _ hd).trans (splitSign_suffix cs))
      · cases h
    · cases h; simp
  · cases h; simp

theorem shrinks_fracPart (pos : Bool) (ds : List Char) : Shrinks (fracPart pos ds) := by
  intro input rest a h
  unfold fracPart at h
  split at h
  · next i3 =>
    split at h
    · next i4 fs hd =>
      have h1 := shrinks_expPart _ _ _ _ _ _ h
      have h2 := shrinks_digit1 _ _ _ hd
      simp only [List.length_cons]
      omega
    · have h1 := shrinks_expPart _ _ _ _ _ _ h
      simp only [List.length_cons]
      omega
  · exact shrinks_expPart _ _ _ _ _ _ h

theorem shrinks_recognize_float : Shrinks recognize_float := by
  intro input rest a h
  simp only [recognize_float] at h
  have hsuf := splitSign_suffix input
  split at h
  · next i2 ds hd =>
    exact (shrinks_fracPart _ _ _ _ _ h).trans ((shrinks_digit1 _ _ _ hd).trans hsuf)
  · split at h
    · next i3 heq =>
      split at h
      · next i4 fs hd =>
        have h1 := shrinks_expPart _ _ _ _ _ _ h
        have h2 := shrinks_digit1 _ _ _ hd
        rw [heq] at hsuf
        simp only [List.length_cons] at hsuf
        omega
      · cases h
    · cases h

theorem shrinks_pdouble : Shrinks pdouble := by
  intro input rest a h
  simp only [pdouble] at h
  split at h
  · next r q hr =>
    cases h
    exact shrinks_recognize_float _ _ _ hr
  · cases h
  · split at h
    · next hr => cases h; exact shrinks_ptag_no_case _ _ _ _ hr
    · split at h
      · next hr => cases h; exact shrinks_ptag_no_case _ _ _ _ hr
      · split at h
        · next hr => cases h; exact shrinks_ptag_no_case _ _ _ _ hr
        · cases h

theorem shrinks_palt {p q : P α} (hp : Shrinks p) (hq : Shrinks q) : Shrinks (palt p q) := by
  intro input rest a h
  unfold palt at h
  split at h
  · next r b heq => cases h; exact hp _ _ _ heq
  · exact hq _ _ _ h
  · cases h

theorem shrinks_pmap {p : P α} (hp : Shrinks p) (f : α → β) : Shrinks (pmap p f) := by
  intro input rest b h
  unfold pmap at h
  split at h
  · next r a heq => cases h; exact hp _ _ _ heq
  · cases h
  · cases h

theorem shrinks_pbind {p : P α} {f : α → P β} (hp : Shrinks p) (hf : ∀ a, Shrinks (f a)) :
    Shrinks (pbind p f) := by
  intro input rest b h
  unfold pbind at h
  split at h
  · next r a heq => exact (hf a _ _ _ h).trans (hp _ _ _ heq)
  · cases h
  · cases h

theorem shrinks_ppeek (p : P α) : Shrinks (ppeek p) := by
  intro input rest a h
  unfold ppeek at h
  split at h
  · cases h; exact Nat.le_refl _
  · cases h
  · cases h

theorem shrinks_pterminated {p : P α} {q : P β} (hp : Shrinks p) (hq : Shrinks q) :
    Shrinks (pterminated p q) :=
  shrinks_pbind hp fun a => shrinks_pmap hq fun _ => a

theorem shrinks_pdelimited {p : P α} {q : P β} {r : P γ} (hp : Shrinks p) (hq : Shrinks q)
    (hr : Shrinks r) : Shrinks (pdelimited p q r) :=
  shrinks_pbind hp fun _ => shrinks_pbind hq fun b => shrinks_pmap hr fun _ => b

theorem shrinks_pseparated_pair {p : P α} {sep : P β} {q : P γ} (hp : Shrinks p)
    (hsep : Shrinks sep) (hq : Shrinks q) : Shrinks (pseparated_pair p sep q) :=
  shrinks_pbind hp fun a => shrinks_pbind hsep fun _ => shrinks_pmap hq fun c => (a, c)

theorem shrinks_parse_delimited_string : Shrinks parse_delimited_string :=
  shrinks_pdelimited (shrinks_pchar '"') (shrinks_take_until1 '"') (shrinks_pchar '"')

theorem shrinks_parse_key : Shrinks parse_key :=
  shrinks_palt shrinks_parse_delimited_string (shrinks_take_until1 '=')

theorem shrinks_parse_value : Shrinks parse_value :=
  shrinks_palt (shrinks_pmap shrinks_parse_delimited_string _)
    (shrinks_palt (shrinks_pmap (shrinks_palt (shrinks_ptag _) (shrinks_ptag _)) _)
      (shrinks_palt (shrinks_pmap (shrinks_pterminated shrinks_pi64 (shrinks_ppeek space1)) _)
        (shrinks_palt (shrinks_pmap shrinks_pdouble _)
          (shrinks_pmap shrinks_parse_key _))))

theorem shrinks_parse_named_item : Shrinks parse_named_item :=
  shrinks_pmap
    (shrinks_pseparated_pair shrinks_parse_key (shrinks_pchar '=') shrinks_parse_value) _

theorem namedItemStep_consumes (input rest : List Char) (p : String × ResultItem)
    (h : namedItemStep input = .ok rest p) : rest.length < input.length := by
  unfold namedItemStep ppreceded pbind at h
  split at h
  · next r a heq =>
    exact Nat.lt_of_le_of_lt (shrinks_parse_named_item _ _ _ h) (space1_consumes _ _ _ heq)
  · cases h
  · cases h

theorem parsePairsF_congr : ∀ (f1 f2 : Nat) (input : List Char),
    input.length < f1 → input.length < f2 → parsePairsF f1 input = parsePairsF f2 input := by
  intro f1
  induction f1 with
  | zero => intro f2 input h1 _; omega
  | succ f ih =>
    intro f2 input h1 h2
    cases f2 with
    | zero => omega
    | succ g =>
      simp only [parsePairsF]
      cases hs : namedItemStep input with
      | ok rest p =>
        dsimp only
        have hlt := namedItemStep_consumes _ _ _ hs
        rw [ih g rest (by omega) (by omega)]
      | err => rfl
      | fail => rfl

/-- The loop of `parse_result_line`, as its ideal recursion: one step, then
the loop on the remainder; the fuel plays no semantic role. -/
theorem parsePairs_eq (input : List Char) :
    parsePairs input =
      match namedItemStep input with
      | .ok rest p => p :: parsePairs rest
      | _ => [] := by
  unfold parsePairs
  simp only [parsePairsF]
  cases hs : namedItemStep input with
  | ok rest p =>
    dsimp only
    have hlt := namedItemStep_consumes _ _ _ hs
    rw [parsePairsF_congr input.length (rest.length + 1) rest (by omega) (by omega)]
    simp only [parsePairsF]
  | err => rfl
  | fail => rfl

/-! ### Decimal digits: rendering/parsing arithmetic -/

theorem isDigit_toNat {c : Char} (h : c.isDigit = true) : 48 ≤ c.toNat ∧ c.toNat ≤ 57 := by
  simp [Char.isDigit] at h
  exact h

theorem charOfNat_digit_toNat :
    ∀ d : Nat, d < 10 → (Char.ofNat ('0'.toNat + d)).toNat = '0'.toNat + d := by decide

theorem charOfNat_digit_isDigit :
    ∀ d : Nat, d < 10 → (Char.ofNat ('0'.toNat + d)).isDigit = true := by decide

theorem digitsVal_foldl (ys : List Char) : ∀ a : Nat,
    ys.foldl (fun a c => 10 * a + (c.toNat - '0'.toNat)) a =
      a * 10 ^ ys.length + digitsVal ys := by
  induction ys with
  | nil => intro a; simp [digitsVal]
  | cons y ys ih =>
    intro a
    have h1 := ih (10 * a + (y.toNat - '0'.toNat))
    have h2 := ih (10 * 0 + (y.toNat - '0'.toNat))
    simp only [List.foldl_cons]
    rw [h1]
    have : digitsVal (y :: ys) = (y.toNat - '0'.toNat) * 10 ^ ys.length + digitsVal ys := by
      simp only [digitsVal, List.foldl_cons]
      rw [h2]; ring_nf; rfl
    rw [this]
    simp [pow_succ]
    ring

theorem digitsVal_cons (c : Char) (ds : List Char) :
    digitsVal (c :: ds) = (c.toNat - '0'.toNat) * 10 ^ ds.length + digitsVal ds := by
  simp only [digitsVal, List.foldl_cons]
  rw [digitsVal_foldl]
  ring_nf
  rfl

theorem digitsVal_append_singleton (xs : List Char) (c : Char) :
    digitsVal (xs ++ [c]) = 10 * digitsVal xs + (c.toNat - '0'.toNat) := by
  simp only [digitsVal, List.foldl_append, List.foldl_cons, List.foldl_nil]

theorem natDigitsAux_spec : ∀ fuel n, n ≤ fuel →
    (∀ c ∈ natDigitsAux fuel n, c.isDigit = true) ∧ digitsVal (natDigitsAux fuel n) = n := by
  intro fuel
  induction fuel with
  | zero =>
    intro n h
    have : n = 0 := Nat.le_zero.mp h
    subst this
    refine ⟨by simp [natDigitsAux], by simp [natDigitsAux, digitsVal]⟩
  | succ f ih =>
    intro n h
    by_cases h0 : n = 0
    · subst h0
      refine ⟨by simp [natDigitsAux], by simp [natDigitsAux, digitsVal]⟩
    · have hdiv : n / 10 ≤ f := by omega
      obtain ⟨ihd, ihv⟩ := ih (n / 10) hdiv
      have hmod : n % 10 < 10 := Nat.mod_lt n (by omega)
      constructor
      · intro c hc
        simp only [natDigitsAux, if_neg h0, List.mem_append, List.mem_singleton] at hc
        rcases hc with hc | hc
        · exact ihd c hc
        · subst hc; exact charOfNat_digit_isDigit _ hmod
      · simp only [natDigitsAux, if_neg h0]
        rw [digitsVal_append_singleton, ihv, charOfNat_digit_toNat _ hmod]
        omega

theorem natToDigits_spec (n : Nat) :
    (∀ c ∈ natToDigits n, c.isDigit = true) ∧ digitsVal (natToDigits n) = n ∧
      natToDigits n ≠ [] := by
  by_cases h0 : n = 0
  · subst h0
    refine ⟨by decide, by decide, by decide⟩
  · obtain ⟨hd, hv⟩ := natDigitsAux_spec n n (Nat.le_refl n)
    have hne : natToDigits n ≠ [] := by
      simp only [natToDigits, if_neg h0]
      cases hfn : natDigitsAux n n with
      | nil =>
        rw [hfn] at hv
        simp [digitsVal] at hv
        omega
      | cons x xs => simp
    refine ⟨?_, ?_, hne⟩
    · intro c hc
      simp only [natToDigits, if_neg h0] at hc
      exact hd c hc
    · simp only [natToDigits, if_neg h0]
      exact hv

/-! ### Behaviour of the primitive parsers on structured input -/

theorem takeWhile_append_run {p : Char → Bool} {xs : List Char} (ys : List Char)
    (h : ∀ c ∈ xs, p c = true) (hy : ∀ c, ys.head? = Option.some c → p c = false) :
    (xs ++ ys).takeWhile p = xs ∧ (xs ++ ys).dropWhile p = ys := by
  induction xs with
  | nil =>
    simp only [List.nil_append]
    cases ys with
    | nil => simp
    | cons y ys' =>
      have := hy y rfl
      simp [List.takeWhile_cons, List.dropWhile_cons, this]
  | cons x xs ih =>
    have hx : p x = true := h x (by simp)
    obtain ⟨h1, h2⟩ := ih (fun c hc => h c (by simp [hc]))
    simp [List.takeWhile_cons, List.dropWhile_cons, hx, h1, h2]

theorem digit1_run (ds rest : List Char) (hds : ∀ c ∈ ds, c.isDigit = true)
    (hne : ds ≠ []) (hrest : ∀ c, rest.head? = Option.some c → c.isDigit = false) :
    digit1 (ds ++ rest) = .ok rest ds := by
  obtain ⟨h1, h2⟩ := takeWhile_append_run rest hds hrest
  simp only [digit1, h1, h2]
  rw [if_neg (by simpa using hne)]

theorem digit1_err {input : List Char}
    (h : ∀ c, input.head? = Option.some c → c.isDigit = false) : digit1 input = .err := by
  cases input with
  | nil => rfl
  | cons c cs => simp [digit1, List.takeWhile_cons, h c rfl]

theorem space1_run {ss : List Char} (rest : List Char) (hss : ∀ c ∈ ss, isSpaceTab c = true)
    (hne : ss ≠ []) (hrest : ∀ c, rest.head? = Option.some c → isSpaceTab c = false) :
    space1 (ss ++ rest) = .ok rest ss := by
  obtain ⟨h1, h2⟩ := takeWhile_append_run rest hss hrest
  simp only [space1, h1, h2]
  rw [if_neg (by simpa using hne)]

theorem space1_err {input : List Char}
    (h : ∀ c, input.head? = Option.some c → isSpaceTab c = false) : space1 input = .err := by
  cases input with
  | nil => rfl
  | cons c cs => simp [space1, List.takeWhile_cons, h c rfl]

theorem space1_isOk {input : List Char} {c : Char} (hc : input.head? = Option.some c)
    (h : isSpaceTab c = true) : space1 input = .ok (input.dropWhile isSpaceTab) (input.takeWhile isSpaceTab) := by
  cases input with
  | nil => cases hc
  | cons x xs =>
    cases hc
    simp only [space1]
    rw [if_neg (by simp [List.takeWhile_cons, h])]

theorem pchar_cons_self (c : Char) (rest : List Char) : pchar c (c :: rest) = .ok rest c := by
  simp [pchar]

theorem pchar_err {c x : Char} (rest : List Char) (h : x ≠ c) : pchar c (x :: rest) = .err := by
  simp [pchar, h]

theorem pchar_head_err {c : Char} {input : List Char}
    (h : ∀ x, input.head? = Option.some x → x ≠ c) : pchar c input = .err := by
  cases input with
  | nil => rfl
  | cons x xs => exact pchar_err xs (h x rfl)

theorem ptag_run (t rest : List Char) : ptag t (t ++ rest) = .ok rest t := by
  simp [ptag, List.isPrefixOf_iff_prefix, List.drop_left]

theorem ptag_err_head {t input : List Char} {c : Char} (ht : t.head? = Option.some c)
    (hi : ∀ x, input.head? = Option.some x → x ≠ c) : ptag t input = .err := by
  cases t with
  | nil => cases ht
  | cons a t' =>
    cases ht
    cases input with
    | nil => rfl
    | cons x xs =>
      have hx := hi x rfl
      simp only [ptag, List.isPrefixOf]
      rw [if_neg]
      simp only [Bool.and_eq_true, beq_iff_eq]
      intro hcontra
      exact hx hcontra.1.symm

theorem ptag_no_case_err_head {t input : List Char} {c : Char} (ht : t.head? = Option.some c)
    (hi : ∀ x, input.head? = Option.some x → x.toLower ≠ c.toLower) :
    ptag_no_case t input = .err := by
  cases t with
  | nil => cases ht
  | cons a t' =>
    cases ht
    cases input with
    | nil =>
      simp [ptag_no_case, noCaseIsPrefix]
    | cons x xs =>
      have hx := hi x rfl
      simp only [ptag_no_case, noCaseIsPrefix]
      rw [if_neg]
      simp only [Bool.and_eq_true, decide_eq_true_eq, List.length_cons, List.all_eq_true]
      intro ⟨hlen, hall⟩
      exact hx (by simpa using hall (x, c) (by simp [List.take, List.zip_cons_cons]))

theorem takeUntil1Aux_none_iff {c : Char} {input : List Char} :
    takeUntil1Aux c input = Option.none ↔ ∀ x ∈ input, x ≠ c := by
  induction input with
  | nil => simp [takeUntil1Aux]
  | cons x xs ih =>
    simp only [takeUntil1Aux]
    by_cases hx : x = c
    · subst hx
      simp
    · simp only [if_neg hx]
      cases haux : takeUntil1Aux c xs with
      | none =>
        rw [haux] at ih
        simp only [Option.map_none']
        constructor
        · intro _ y hy
          rcases List.mem_cons.mp hy with h1 | h1
          · subst h1; exact hx
          · exact ih.mp rfl y h1
        · intro _; trivial
      | some p =>
        rw [haux] at ih
        simp only [Option.map_some']
        constructor
        · intro h; cases h
        · intro h
          have : ∀ x ∈ xs, x ≠ c := fun y hy => h y (by simp [hy])
          cases (ih.mpr this)

theorem takeUntil1Aux_run {c : Char} {xs : List Char} (rest : List Char)
    (h : ∀ x ∈ xs, x ≠ c) :
    takeUntil1Aux c (xs ++ c :: rest) = Option.some (xs, c :: rest) := by
  induction xs with
  | nil => simp [takeUntil1Aux]
  | cons x xs ih =>
    have hx : x ≠ c := h x (by simp)
    have ih' := ih (fun y hy => h y (by simp [hy]))
    simp only [List.cons_append, takeUntil1Aux, if_neg hx, List.append_eq]
    rw [ih']
    rfl

theorem take_until1_run {c : Char} {xs : List Char} (rest : List Char)
    (h : ∀ x ∈ xs, x ≠ c) (hne : xs ≠ []) :
    take_until1 c (xs ++ c :: rest) = .ok (c :: rest) xs := by
  unfold take_until1
  rw [takeUntil1Aux_run rest h]
  cases xs with
  | nil => exact absurd rfl hne
  | cons x xs' => rfl

theorem take_until1_err_no_occur {c : Char} {input : List Char} (h : ∀ x ∈ input, x ≠ c) :
    take_until1 c input = .err := by
  unfold take_until1
  rw [takeUntil1Aux_none_iff.mpr h]

theorem take_until1_err_head (c : Char) (rest : List Char) :
    take_until1 c (c :: rest) = .err := by
  unfold take_until1
  have : takeUntil1Aux c (c :: rest) = Option.some ([], c :: rest) := by
    simp [takeUntil1Aux]
  rw [this]

/-! ### `i64` parsing of rendered and literal digit runs -/

theorem Int.le_self_mul_pow {a : Int} (ha : 0 ≤ a) (n : Nat) : a ≤ a * 10 ^ n := by
  have h1 : (1 : Int) ≤ 10 ^ n := one_le_pow₀ (by norm_num)
  calc a = a * 1 := by ring
    _ ≤ a * 10 ^ n := by
        exact mul_le_mul_of_nonneg_left h1 ha

theorem Int.self_mul_pow_le {a : Int} (ha : a ≤ 0) (n : Nat) : a * 10 ^ n ≤ a := by
  have h1 : (1 : Int) ≤ 10 ^ n := one_le_pow₀ (by norm_num)
  calc a * 10 ^ n ≤ a * 1 := mul_le_mul_of_nonpos_left h1 ha
    _ = a := by ring

theorem digitsVal_cons_int (d : Char) (ds : List Char) (hd : d.isDigit = true) :
    (digitsVal (d :: ds) : Int) =
      ((d.toNat : Int) - ('0'.toNat : Int)) * 10 ^ ds.length + (digitsVal ds : Int) := by
  obtain ⟨h1, _⟩ := isDigit_toNat hd
  rw [digitsVal_cons]
  push_cast [Nat.cast_sub h1]
  ring

theorem i64go_pos_run : ∀ (ds rest : List Char) (v : Int),
    (∀ c ∈ ds, c.isDigit = true) →
    (∀ c, rest.head? = Option.some c → c.isDigit = false) →
    0 ≤ v →
    v * 10 ^ ds.length + (digitsVal ds : Int) ≤ i64Max →
    i64go true v (ds ++ rest) = .ok rest (v * 10 ^ ds.length + (digitsVal ds : Int)) := by
  intro ds
  induction ds with
  | nil =>
    intro rest v _ hrest _ _
    cases rest with
    | nil =>
      simp only [List.nil_append, i64go]
      norm_num [digitsVal]
    | cons c cs =>
      have hc := hrest c rfl
      simp only [List.nil_append, i64go, hc]
      norm_num [digitsVal]
  | cons d ds ih =>
    intro rest v hds hrest hv hbound
    have hd : d.isDigit = true := hds d (by simp)
    obtain ⟨hd1, hd2⟩ := isDigit_toNat hd
    have hdv0 : (0 : Int) ≤ (d.toNat : Int) - ('0'.toNat : Int) := by
      have h48 : ('0'.toNat : Int) = 48 := by decide
      have : (48 : Int) ≤ (d.toNat : Int) := by exact_mod_cast hd1
      omega
    have hval := digitsVal_cons_int d ds hd
    have hstep : i64step true v d = 10 * v + ((d.toNat : Int) - ('0'.toNat : Int)) := rfl
    have hv' : 0 ≤ i64step true v d := by rw [hstep]; omega
    have htot : i64step true v d * 10 ^ ds.length + (digitsVal ds : Int) =
        v * 10 ^ (ds.length + 1) + (digitsVal (d :: ds) : Int) := by
      rw [hval, hstep]; ring
    have hbound' : i64step true v d * 10 ^ ds.length + (digitsVal ds : Int) ≤ i64Max := by
      rw [htot]
      simpa using hbound
    have hle : i64step true v d ≤ i64Max := by
      have h1 := Int.le_self_mul_pow hv' ds.length
      have h2 : (0 : Int) ≤ (digitsVal ds : Int) := by positivity
      omega
    have hge : i64Min ≤ i64step true v d := by
      have : (0 : Int) ≤ i64step true v d := hv'
      simp only [i64Min]
      omega
    simp only [List.cons_append, i64go, hd, if_pos (And.intro hge hle), if_true, List.append_eq]
    rw [ih rest (i64step true v d) (fun c hc => hds c (by simp [hc])) hrest hv' hbound']
    rw [htot]
    simp

theorem i64go_neg_run : ∀ (ds rest : List Char) (v : Int),
    (∀ c ∈ ds, c.isDigit = true) →
    (∀ c, rest.head? = Option.some c → c.isDigit = false) →
    v ≤ 0 →
    i64Min ≤ v * 10 ^ ds.length - (digitsVal ds : Int) →
    i64go false v (ds ++ rest) = .ok rest (v * 10 ^ ds.length - (digitsVal ds : Int)) := by
  intro ds
  induction ds with
  | nil =>
    intro rest v _ hrest _ _
    cases rest with
    | nil =>
      simp only [List.nil_append, i64go]
      norm_num [digitsVal]
    | cons c cs =>
      have hc := hrest c rfl
      simp only [List.nil_append, i64go, hc]
      norm_num [digitsVal]
  | cons d ds ih =>
    intro rest v hds hrest hv hbound
    have hd : d.isDigit = true := hds d (by simp)
    obtain ⟨hd1, hd2⟩ := isDigit_toNat hd
    have hdv0 : (0 : Int) ≤ (d.toNat : Int) - ('0'.toNat : Int) := by
      have h48 : ('0'.toNat : Int) = 48 := by decide
      have : (48 : Int) ≤ (d.toNat : Int) := by exact_mod_cast hd1
      omega
    have hval := digitsVal_cons_int d ds hd
    have hstep : i64step false v d = 10 * v - ((d.toNat : Int) - ('0'.toNat : Int)) := rfl
    have hv' : i64step false v d ≤ 0 := by rw [hstep]; omega
    have htot : i64step false v d * 10 ^ ds.length - (digitsVal ds : Int) =
        v * 10 ^ (ds.length + 1) - (digitsVal (d :: ds) : Int) := by
      rw [hval, hstep]; ring
    have hbound' : i64Min ≤ i64step false v d * 10 ^ ds.length - (digitsVal ds : Int) := by
      rw [htot]
      simpa using hbound
    have hge : i64Min ≤ i64step false v d := by
      have h1 := Int.self_mul_pow_le hv' ds.length
      have h2 : (0 : Int) ≤ (digitsVal ds : Int) := by positivity
      omega
    have hle : i64step false v d ≤ i64Max := by
      simp only [i64Max]
      omega
    simp only [List.cons_append, i64go, hd, if_pos (And.intro hge hle), if_true, List.append_eq]
    rw [ih rest (i64step false v d) (fun c hc => hds c (by simp [hc])) hrest hv' hbound']
    rw [htot]
    simp

theorem i64go_complete (pos : Bool) : ∀ (ds : List Char) (v : Int),
    (∀ c ∈ ds, c.isDigit = true) →
    (∃ w, i64go pos v ds = .ok [] w) ∨ i64go pos v ds = .err := by
  intro ds
  induction ds with
  | nil => intro v _; exact Or.inl ⟨v, by simp [i64go]⟩
  | cons d ds ih =>
    intro v hds
    simp only [i64go, hds d (by simp), if_true]
    split
    · exact ih _ (fun c hc => hds c (by simp [hc]))
    · exact Or.inr rfl

/-! ### Signed-integer-literal tokens -/

/-- `cs` is a signed-integer literal: an optional sign followed by one or
more decimal digits. -/
def IsIntLit (cs : List Char) : Prop :=
  (splitSign cs).2 ≠ [] ∧ ∀ c ∈ (splitSign cs).2, c.isDigit = true

instance (cs : List Char) : Decidable (IsIntLit cs) := by
  unfold IsIntLit; infer_instance

/-- The integer value of a signed-integer literal. -/
def intLitVal (cs : List Char) : Int :=
  if (splitSign cs).1 then (digitsVal (splitSign cs).2 : Int)
  else -(digitsVal (splitSign cs).2 : Int)

theorem IsIntLit.ne_nil {cs : List Char} (h : IsIntLit cs) : cs ≠ [] := by
  intro hc
  subst hc
  exact h.1 rfl

theorem splitSign_append (cs rest : List Char) (hne : cs ≠ []) :
    splitSign (cs ++ rest) = ((splitSign cs).1, (splitSign cs).2 ++ rest) := by
  cases cs with
  | nil => exact absurd rfl hne
  | cons x xs =>
    rw [splitSign_eq, splitSign_eq]
    simp only [List.cons_append, List.head?_cons, List.tail_cons]
    by_cases h1 : x = '+'
    · simp [h1]
    · by_cases h2 : x = '-'
      · simp [h1, h2]
      · simp [h1, h2]

theorem pi64_run (cs rest : List Char) (h : IsIntLit cs)
    (hrest : ∀ c, rest.head? = Option.some c → c.isDigit = false)
    (hmin : i64Min ≤ intLitVal cs) (hmax : intLitVal cs ≤ i64Max) :
    pi64 (cs ++ rest) = .ok rest (intLitVal cs) := by
  obtain ⟨hne, hds⟩ := h
  simp only [pi64]
  rw [splitSign_append cs rest (IsIntLit.ne_nil ⟨hne, hds⟩)]
  cases hds2 : (splitSign cs).2 with
  | nil => exact absurd hds2 hne
  | cons d ds' =>
    rw [hds2] at hds
    have hd : d.isDigit = true := hds d (by simp)
    simp only [List.cons_append, hd, if_true]
    rw [← List.cons_append]
    cases hpos : (splitSign cs).1 with
    | true =>
      have hrun := i64go_pos_run (d :: ds') rest 0 hds hrest (by omega)
        (by
          simp only [zero_mul, zero_add]
          have : intLitVal cs = (digitsVal (d :: ds') : Int) := by
            simp [intLitVal, hpos, hds2]
          rw [this] at hmax
          exact hmax)
      rw [hrun]
      simp [intLitVal, hpos, hds2]
    | false =>
      have hrun := i64go_neg_run (d :: ds') rest 0 hds hrest (by omega)
        (by
          simp only [zero_mul, zero_sub]
          have : intLitVal cs = -(digitsVal (d :: ds') : Int) := by
            simp [intLitVal, hpos, hds2]
          rw [this] at hmin
          simpa using hmin)
      rw [hrun]
      simp [intLitVal, hpos, hds2]

theorem pi64_complete (cs : List Char) (h : IsIntLit cs) :
    (∃ w, pi64 cs = .ok [] w) ∨ pi64 cs = .err := by
  obtain ⟨hne, hds⟩ := h
  simp only [pi64]
  cases hds2 : (splitSign cs).2 with
  | nil => exact absurd hds2 hne
  | cons d ds' =>
    rw [hds2] at hds
    have hd : d.isDigit = true := hds d (by simp)
    simp only [hd, if_true]
    exact i64go_complete _ _ _ hds

theorem pi64_err_head {input : List Char}
    (h : ∀ c, input.head? = Option.some c → c ≠ '+' ∧ c ≠ '-' ∧ c.isDigit = false) :
    pi64 input = .err := by
  cases input with
  | nil => rfl
  | cons x xs =>
    obtain ⟨h1, h2, h3⟩ := h x rfl
    have hs : splitSign (x :: xs) = (true, x :: xs) := by
      rw [splitSign_eq]; simp [h1, h2]
    simp only [pi64, hs]
    simp [h3]

/-! ### `double` on integer-looking tokens, and failure off-grammar -/

theorem floatVal_intdigits (pos : Bool) (ds : List Char) :
    floatVal pos ds [] true [] =
      ((if pos then (digitsVal ds : Int) else -(digitsVal ds : Int)) : ℚ) := by
  cases pos <;> simp [floatVal, digitsVal]

theorem recognize_float_intlit (cs : List Char) (h : IsIntLit cs) :
    recognize_float cs = .ok [] ((intLitVal cs : ℚ)) := by
  obtain ⟨hne, hds⟩ := h
  simp only [recognize_float]
  have hd1 : digit1 (splitSign cs).2 = .ok [] (splitSign cs).2 := by
    have := digit1_run ((splitSign cs).2) [] hds hne (by intro c hc; cases hc)
    simpa using this
  rw [hd1]
  dsimp only
  have hfrac : fracPart (splitSign cs).1 (splitSign cs).2 [] =
      .ok [] (floatVal (splitSign cs).1 (splitSign cs).2 [] true []) := rfl
  rw [hfrac, floatVal_intdigits]
  simp only [intLitVal]
  split <;> push_cast <;> ring_nf

theorem recognize_float_err_head {input : List Char}
    (h : ∀ c, input.head? = Option.some c →
      (c ≠ '+' ∧ c ≠ '-' ∧ c.isDigit = false ∧ c ≠ '.')) :
    recognize_float input = .err := by
  cases input with
  | nil => rfl
  | cons x xs =>
    obtain ⟨h1, h2, h3, h4⟩ := h x rfl
    have hs : splitSign (x :: xs) = (true, x :: xs) := by
      rw [splitSign_eq]; simp [h1, h2]
    simp only [recognize_float, hs]
    rw [digit1_err (by intro c hc; cases hc; exact h3)]
    dsimp only
    split
    · rename_i i3 heq
      injection heq with hx _
      exact absurd hx h4
    · rfl

theorem pdouble_intlit (cs : List Char) (h : IsIntLit cs) :
    pdouble cs = .ok [] (.num ((intLitVal cs : ℚ))) := by
  simp only [pdouble, recognize_float_intlit cs h]

theorem pdouble_err_head {input : List Char}
    (h : ∀ c, input.head? = Option.some c →
      (c ≠ '+' ∧ c ≠ '-' ∧ c.isDigit = false ∧ c ≠ '.'))
    (hnan : noCaseIsPrefix ("nan".data) input = false)
    (hinfy : noCaseIsPrefix ("infinity".data) input = false)
    (hinf : noCaseIsPrefix ("inf".data) input = false) :
    pdouble input = .err := by
  simp only [pdouble, recognize_float_err_head h, ptag_no_case, hnan, hinfy, hinf,
    Bool.false_eq_true, if_false]

/-! ### `alt` and composite helpers -/

theorem palt_of_err {p q : P α} {input : List Char} (hp : p input = .err) :
    palt p q input = q input := by
  simp [palt, hp]

theorem palt_of_ok {p q : P α} {input rest : List Char} {a : α}
    (hp : p input = .ok rest a) : palt p q input = .ok rest a := by
  simp [palt, hp]

theorem pmap_of_ok {p : P α} {f : α → β} {input rest : List Char} {a : α}
    (hp : p input = .ok rest a) : pmap p f input = .ok rest (f a) := by
  simp [pmap, hp]

theorem pmap_of_err {p : P α} {f : α → β} {input : List Char}
    (hp : p input = .err) : pmap p f input = .err := by
  simp [pmap, hp]

theorem parse_delimited_string_err {input : List Char}
    (h : ∀ c, input.head? = Option.some c → c ≠ '"') :
    parse_delimited_string input = .err := by
  have hp := pchar_head_err h
  simp [parse_delimited_string, pdelimited, pbind, hp]

theorem parse_delimited_string_run {t : List Char} (rest : List Char)
    (hne : t ≠ []) (hq : ∀ x ∈ t, x ≠ '"') :
    parse_delimited_string ('"' :: (t ++ '"' :: rest)) = .ok rest t := by
  simp [parse_delimited_string, pdelimited, pbind, pmap, pchar_cons_self,
    take_until1_run rest hq hne]

theorem parse_key_bare {k : List Char} (rest : List Char) (hne : k ≠ [])
    (hq : ∀ c, k.head? = Option.some c → c ≠ '"') (heqk : ∀ x ∈ k, x ≠ '=') :
    parse_key (k ++ '=' :: rest) = .ok ('=' :: rest) k := by
  unfold parse_key
  rw [palt_of_err (parse_delimited_string_err (by
    intro c hc
    rw [List.head?_append_of_ne_nil k hne] at hc
    exact hq c hc))]
  exact take_until1_run rest heqk hne

theorem parse_key_quoted {t : List Char} (rest : List Char) (hne : t ≠ [])
    (hq : ∀ x ∈ t, x ≠ '"') :
    parse_key ('"' :: (t ++ '"' :: rest)) = .ok rest t := by
  unfold parse_key
  exact palt_of_ok (parse_delimited_string_run rest hne hq)

/-! ### `parse_value` on each class of rendered token -/

theorem isDigit_ne {c x : Char} (h : c.isDigit = true) (hx : x.isDigit = false) : c ≠ x := by
  intro he
  subst he
  rw [h] at hx
  cases hx

theorem signDigit_ne {c x : Char} (h : c = '+' ∨ c = '-' ∨ c.isDigit = true)
    (hx : x.isDigit = false) (h1 : '+' ≠ x) (h2 : '-' ≠ x) : c ≠ x := by
  rcases h with h | h | h
  · subst h; exact h1
  · subst h; exact h2
  · exact isDigit_ne h hx

theorem isSpaceTab_not_digit {c : Char} (h : isSpaceTab c = true) : c.isDigit = false := by
  simp only [isSpaceTab, Bool.or_eq_true, beq_iff_eq] at h
  rcases h with h | h <;> subst h <;> decide

theorem IsIntLit.head {cs : List Char} (h : IsIntLit cs) :
    ∃ c cs', cs = c :: cs' ∧ (c = '+' ∨ c = '-' ∨ c.isDigit = true) := by
  have hne := h.ne_nil
  obtain ⟨hne2, hds⟩ := h
  cases cs with
  | nil => exact absurd rfl hne
  | cons x xs =>
    refine ⟨x, xs, rfl, ?_⟩
    by_cases h1 : x = '+'
    · exact Or.inl h1
    · by_cases h2 : x = '-'
      · exact Or.inr (Or.inl h2)
      · have hs : splitSign (x :: xs) = (true, x :: xs) := by
          rw [splitSign_eq]; simp [h1, h2]
        rw [hs] at hds
        exact Or.inr (Or.inr (hds x (by simp)))

theorem parse_value_intlit_ws (cs rest : List Char) (h : IsIntLit cs)
    (c : Char) (hc : rest.head? = Option.some c) (hcs : isSpaceTab c = true)
    (hmin : i64Min ≤ intLitVal cs) (hmax : intLitVal cs ≤ i64Max) :
    parse_value (cs ++ rest) = .ok rest (.Integer (intLitVal cs)) := by
  obtain ⟨h0, cs', hcons, hsgn⟩ := h.head
  have hhead : (cs ++ rest).head? = Option.some h0 := by
    rw [hcons]; rfl
  have hrest : ∀ c', rest.head? = Option.some c' → c'.isDigit = false := by
    intro c' hc'
    rw [hc] at hc'
    cases hc'
    exact isSpaceTab_not_digit hcs
  have hpi := pi64_run cs rest h hrest hmin hmax
  unfold parse_value
  rw [palt_of_err (pmap_of_err (parse_delimited_string_err (by
    intro c' hc'
    rw [hhead] at hc'
    cases hc'
    exact signDigit_ne hsgn (by decide) (by decide) (by decide))))]
  rw [palt_of_err (pmap_of_err (by
    rw [palt_of_err (ptag_err_head (t := "true".data) (c := 't') rfl (by
      intro x hx
      rw [hhead] at hx
      cases hx
      exact signDigit_ne hsgn (by decide) (by decide) (by decide)))]
    exact ptag_err_head (t := "false".data) (c := 'f') rfl (by
      intro x hx
      rw [hhead] at hx
      cases hx
      exact signDigit_ne hsgn (by decide) (by decide) (by decide))))]
  rw [palt_of_ok (pmap_of_ok (by
    simp only [pterminated, pbind, hpi]
    simp [pmap, ppeek, space1_isOk hc hcs] : pterminated pi64 (ppeek space1) (cs ++ rest) = .ok rest (intLitVal cs)))]

theorem parse_value_intlit_last (cs : List Char) (h : IsIntLit cs) :
    parse_value cs = .ok [] (.Float (.num ((intLitVal cs : ℚ)))) := by
  obtain ⟨h0, cs', hcons, hsgn⟩ := h.head
  have hhead : cs.head? = Option.some h0 := by rw [hcons]; rfl
  unfold parse_value
  rw [palt_of_err (pmap_of_err (parse_delimited_string_err (by
    intro c' hc'
    rw [hhead] at hc'
    cases hc'
    exact signDigit_ne hsgn (by decide) (by decide) (by decide))))]
  rw [palt_of_err (pmap_of_err (by
    rw [palt_of_err (ptag_err_head (t := "true".data) (c := 't') rfl (by
      intro x hx
      rw [hhead] at hx
      cases hx
      exact signDigit_ne hsgn (by decide) (by decide) (by decide)))]
    exact ptag_err_head (t := "false".data) (c := 'f') rfl (by
      intro x hx
      rw [hhead] at hx
      cases hx
      exact signDigit_ne hsgn (by decide) (by decide) (by decide))))]
  rw [palt_of_err (pmap_of_err (by
    rcases pi64_complete cs h with ⟨w, hw⟩ | hw
    · simp [pterminated, pbind, pmap, ppeek, hw, space1]
    · simp [pterminated, pbind, hw] : pterminated pi64 (ppeek space1) cs = .err))]
  exact palt_of_ok (pmap_of_ok (pdouble_intlit cs h))

theorem parse_value_true (rest : List Char) :
    parse_value ("true".data ++ rest) = .ok rest (.Boolean true) := by
  unfold parse_value
  rw [palt_of_err (pmap_of_err (parse_delimited_string_err (by
    intro c hc
    cases hc
    decide)))]
  rw [palt_of_ok (pmap_of_ok (palt_of_ok (ptag_run ("true".data) rest)))]
  norm_num

theorem parse_value_false (rest : List Char) :
    parse_value ("false".data ++ rest) = .ok rest (.Boolean false) := by
  unfold parse_value
  rw [palt_of_err (pmap_of_err (parse_delimited_string_err (by
    intro c hc
    cases hc
    decide)))]
  rw [palt_of_ok (pmap_of_ok (by
    rw [palt_of_err (ptag_err_head (t := "true".data) (c := 't') rfl (by intro x hx; cases hx; decide))]
    exact ptag_run ("false".data) rest))]
  norm_num

theorem parse_value_quoted {t : List Char} (rest : List Char) (hne : t ≠ [])
    (hq : ∀ x ∈ t, x ≠ '"') :
    parse_value ('"' :: (t ++ '"' :: rest)) = .ok rest (.Text ⟨t⟩) := by
  unfold parse_value
  exact palt_of_ok (pmap_of_ok (parse_delimited_string_run rest hne hq))


/-! ### Serializer state lemmas -/

/-- A `Named` result only ever comes out of `eat` consuming the pending
key, so the state it leaves behind has no pending key. -/
theorem serializeVal_named_clears : ∀ (v : SVal) (st : Structurizer) (a b : ResultItem)
    (st' : Structurizer),
    serializeVal st v = .ok (.Named a b, st') → st'.current_name = Option.none
  | .bool _, st, a, b, st', h => by
    simp only [serializeVal, Structurizer.eat] at h
    split at h <;> (cases h; try rfl)
  | .int _, st, a, b, st', h => by
    simp only [serializeVal, Structurizer.eat] at h
    split at h <;> (cases h; try rfl)
  | .uint _, st, a, b, st', h => by
    simp only [serializeVal, Structurizer.eat, resultItemFromUsize] at h
    split at h <;> (cases h; try rfl)
  | .f64 _, st, a, b, st', h => by
    simp only [serializeVal, Structurizer.eat] at h
    split at h <;> (cases h; try rfl)
  | .char _, st, a, b, st', h => by
    simp only [serializeVal, Structurizer.eat] at h
    split at h <;> (cases h; try rfl)
  | .str _, st, a, b, st', h => by
    simp only [serializeVal, Structurizer.eat] at h
    split at h <;> (cases h; try rfl)
  | .none, st, a, b, st', h => by
    simp only [serializeVal, Structurizer.eat] at h
    split at h <;> (cases h; try rfl)
  | .unit, st, a, b, st', h => by
    simp only [serializeVal, Structurizer.eat] at h
    split at h <;> (cases h; try rfl)
  | .unitStruct, st, a, b, st', h => by
    simp only [serializeVal, Structurizer.eat] at h
    split at h <;> (cases h; try rfl)
  | .unitVariant, st, a, b, st', h => by
    simp only [serializeVal, Structurizer.eat] at h
    split at h <;> (cases h; try rfl)
  | .some v, st, a, b, st', h => serializeVal_named_clears v st a b st' h
  | .newtypeStruct v, st, a, b, st', h => serializeVal_named_clears v st a b st' h
  | .newtypeVariant v, st, a, b, st', h => serializeVal_named_clears v st a b st' h
  | .map entries, st, a, b, st', h => by
    simp only [serializeVal] at h
    split at h <;> cases h
  | .strct fields, st, a, b, st', h => by
    simp only [serializeVal] at h
    split at h <;> cases h
  | .seq, st, a, b, st', h => by simp [serializeVal] at h
  | .tuple, st, a, b, st', h => by simp [serializeVal] at h
  | .tupleStruct, st, a, b, st', h => by simp [serializeVal] at h
  | .tupleVariant, st, a, b, st', h => by simp [serializeVal] at h
  | .structVariant, st, a, b, st', h => by simp [serializeVal] at h

theorem serializeEntries_none : ∀ (es : SEntries) (st st' : Structurizer),
    st.current_name = Option.none → serializeEntries st es = .ok st' →
    st'.current_name = Option.none
  | .nil, st, st', hst, h => by
    simp only [serializeEntries] at h
    cases h
    exact hst
  | .cons k v rest, st, st', hst, h => by
    simp only [serializeEntries] at h
    split at h
    · cases h
    · split at h
      · cases h
      · split at h
        · next name value heq =>
          have hclear := serializeVal_named_clears v _ name value _ (by assumption)
          split at h
          · exact serializeEntries_none rest _ st' (by simpa using hclear) h
          · exact serializeEntries_none rest _ st' hclear h
        · cases h

theorem serializeEntries_append (l1 l2 : List (SVal × SVal)) : ∀ (st : Structurizer),
    serializeEntries st (entriesOfList (l1 ++ l2)) =
      match serializeEntries st (entriesOfList l1) with
      | .ok st' => serializeEntries st' (entriesOfList l2)
      | .error e => .error e := by
  induction l1 with
  | nil => intro st; simp [entriesOfList, serializeEntries]
  | cons kv l1 ih =>
    intro st
    obtain ⟨k, v⟩ := kv
    simp only [List.cons_append, entriesOfList, serializeEntries]
    cases h1 : serializeVal st k with
    | error e => rfl
    | ok p =>
      obtain ⟨rk, st1⟩ := p
      dsimp only
      cases h2 : serializeVal { st1 with current_name := Option.some rk } v with
      | error e => rfl
      | ok p2 =>
        obtain ⟨rv, st3⟩ := p2
        dsimp only
        cases rv with
        | Named name value =>
          dsimp only
          split
          · exact ih _
          · exact ih _
        | Integer n => rfl
        | Float f => rfl
        | Boolean b => rfl
        | Character c => rfl
        | Text t => rfl
        | Empty => rfl

theorem serializeEntries_cons_empty (st : Structurizer) (hst : st.current_name = Option.none)
    (s : String) (v : SVal) (hv : v = SVal.none ∨ v = SVal.unitVariant) (rest : SEntries) :
    serializeEntries st (.cons (SVal.str s) v rest) = serializeEntries st rest := by
  obtain ⟨cn, out⟩ := st
  simp only at hst
  subst hst
  rcases hv with rfl | rfl <;>
    simp [serializeEntries, serializeVal, Structurizer.eat, ResultItem.is_empty]

/-! ### Claim theorems -/

/-- C5: encoding the record `{a: "hello world", b: -123423904,
flattened-map: {"map key": 100}, d: true}` — which the external serde driver
presents to the serializer, per `#[serde(flatten)]`, as one keyed collection
whose entries are the outer fields with the inner map's entry spliced in at
its field's position — yields exactly
`RESULT a="hello world" b=-123423904 "map key"=100 d=true`: the nested
map's entry appears at top level under its own key. -/
theorem C5_flatten_encoding :
    to_string (.map (entriesOfList
      [(.str "a", .str "hello world"), (.str "b", .int (-123423904)),
       (.str "map key", .uint 100), (.str "d", .bool true)])) =
      .ok "RESULT a=\"hello world\" b=-123423904 \"map key\"=100 d=true" := by
  decide

/-- C6: a record or map field whose value encodes to `Empty` (`None`, or a
unit variant) is dropped entirely from the output — removing such an entry
from the encoded collection does not change the encoded line — and a record
all of whose fields are absent encodes to the bare line `RESULT`. -/
theorem C6_empty_fields_dropped :
    (∀ (s : String) (pre post : List (SVal × SVal)),
      to_string (.map (entriesOfList (pre ++ (SVal.str s, SVal.none) :: post))) =
        to_string (.map (entriesOfList (pre ++ post)))) ∧
    (∀ (s : String) (pre post : List (SVal × SVal)),
      to_string (.map (entriesOfList (pre ++ (SVal.str s, SVal.unitVariant) :: post))) =
        to_string (.map (entriesOfList (pre ++ post)))) ∧
    (∀ ks : List String,
      to_string (.strct (entriesOfList (ks.map fun k => (SVal.str k, SVal.none)))) =
        .ok "RESULT") := by
  have key : ∀ (s : String) (v : SVal), (v = SVal.none ∨ v = SVal.unitVariant) →
      ∀ (pre post : List (SVal × SVal)),
      to_string (.map (entriesOfList (pre ++ (SVal.str s, v) :: post))) =
        to_string (.map (entriesOfList (pre ++ post))) := by
    intro s v hv pre post
    unfold to_string
    simp only [serializeVal]
    rw [serializeEntries_append pre ((SVal.str s, v) :: post),
      serializeEntries_append pre post]
    cases hpre : serializeEntries ⟨Option.none, []⟩ (entriesOfList pre) with
    | error e => rfl
    | ok st' =>
      dsimp only
      have hcn : st'.current_name = Option.none :=
        serializeEntries_none _ _ _ rfl hpre
      rw [show entriesOfList ((SVal.str s, v) :: post) =
        .cons (SVal.str s) v (entriesOfList post) from rfl]
      rw [serializeEntries_cons_empty st' hcn s v hv]
  refine ⟨fun s pre post => key s _ (Or.inl rfl) pre post,
    fun s pre post => key s _ (Or.inr rfl) pre post, ?_⟩
  intro ks
  induction ks with
  | nil => decide
  | cons k ks ih =>
    have step := key k SVal.none (Or.inl rfl) [] (ks.map fun k => (SVal.str k, SVal.none))
    unfold to_string at step ih ⊢
    simp only [List.map_cons, List.nil_append] at step ⊢
    simp only [serializeVal] at step ih ⊢
    rw [show entriesOfList ((SVal.str k, SVal.none) :: ks.map fun k => (SVal.str k, SVal.none)) =
      .cons (SVal.str k) SVal.none (entriesOfList (ks.map fun k => (SVal.str k, SVal.none)))
      from rfl]
    rw [serializeEntries_cons_empty ⟨Option.none, []⟩ rfl k SVal.none (Or.inl rfl)]
    exact ih

/-- C7 counterexample: the claim says every non-map non-record top-level
shape — including a bare scalar — is rejected with an "unsupported shape"
error, but encoding the bare scalar `5` succeeds and yields the bare line
`RESULT`: the scalar's result is discarded and no error is raised. -/
theorem C7_counterexample : to_string (.int 5) = .ok "RESULT" := by decide

/-- C7 amended: sequences, tuples, tuple structs, tuple variants and struct
variants are rejected with an `Unsupported` error naming the shape, but a
bare scalar at top level is not rejected — it encodes to the bare line
`RESULT` with the scalar discarded. -/
theorem C7_amended :
    to_string .seq = .error (.Unsupported "seq") ∧
    to_string .tuple = .error (.Unsupported "tuple") ∧
    to_string .tupleStruct = .error (.Unsupported "tuple struct") ∧
    to_string .tupleVariant = .error (.Unsupported "tuple variant") ∧
    to_string .structVariant = .error (.Unsupported "struct variant") ∧
    (∀ n : Int, to_string (.int n) = .ok "RESULT") ∧
    (∀ b : Bool, to_string (.bool b) = .ok "RESULT") ∧
    (∀ s : String, to_string (.str s) = .ok "RESULT") ∧
    (∀ v : FloatVal, to_string (.f64 v) = .ok "RESULT") ∧
    (∀ c : Char, to_string (.char c) = .ok "RESULT") := by
  refine ⟨by decide, by decide, by decide, by decide, by decide,
    fun n => rfl, fun b => rfl, fun s => rfl, fun v => rfl, fun c => rfl⟩

/-- C9 counterexample: the claim says the unsigned-to-`ResultItem`
conversion preserves every value including those above the signed maximum,
but `usize as isize` wraps: `2^63` is converted to `Integer (-2^63)`, not
`Integer (2^63)`. -/
theorem C9_counterexample :
    resultItemFromUsize (2 ^ 63) = .Integer (-(2 ^ 63)) ∧
    resultItemFromUsize (2 ^ 63) ≠ .Integer (2 ^ 63) := by
  constructor
  · decide
  · decide

/-- C9 amended: the conversion from a native unsigned integer is total and
non-failing and maps values below `2^63` losslessly into `Integer`; values
in `[2^63, 2^64)` wrap two's-complement style to the negative value
`n - 2^64` (as `serialize_u64` → `usize as isize` does on a 64-bit
target). -/
theorem C9_amended :
    (∀ n : Nat, n < 2 ^ 63 →
      resultItemFromUsize n = .Integer n ∧
      serializeVal ⟨Option.none, []⟩ (.uint n) = .ok (.Integer n, ⟨Option.none, []⟩)) ∧
    (∀ n : Nat, 2 ^ 63 ≤ n → n < 2 ^ 64 →
      resultItemFromUsize n = .Integer ((n : Int) - 2 ^ 64) ∧ ((n : Int) - 2 ^ 64) < 0) := by
  constructor
  · intro n hn
    have hmod : n % 2 ^ 64 = n := Nat.mod_eq_of_lt (by omega)
    have h1 : resultItemFromUsize n = .Integer n := by
      unfold resultItemFromUsize usizeAsIsize
      rw [hmod, if_pos hn]
    refine ⟨h1, ?_⟩
    show Except.ok ((Structurizer.eat ⟨Option.none, []⟩ (resultItemFromUsize n))) = _
    rw [h1]
    rfl
  · intro n hge hlt
    have hmod : n % 2 ^ 64 = n := Nat.mod_eq_of_lt hlt
    constructor
    · simp only [resultItemFromUsize, usizeAsIsize, hmod]
      rw [if_neg (by omega)]
    · have : (n : Int) < 2 ^ 64 := by exact_mod_cast hlt
      omega

/-- C8 counterexample: the claim says the whitespace-quoting rule applies to
the rendered text of every variant, but a `Character ' '` value renders as a
bare space without quotes: `Named(Text "a", Character ' ')` renders as
`a= `, not `a=" "`, even though its rendered value is entirely
whitespace. -/
theorem C8_counterexample :
    (NamedItem.mk (.Text "a") (.Character ' ')).display = "a= " ∧
    hasWs ((ResultItem.Character ' ').display) = true ∧
    (NamedItem.mk (.Text "a") (.Character ' ')).display ≠ "a=\" \"" := by
  refine ⟨by decide, by decide, by decide⟩

/-- C8 amended: for every `Named` pair — any combination of variants on the
two sides — the rendering is the key side, `=`, then the value side, where
each side is treated independently: a side that is a `Text` value is
wrapped in double quotes iff it contains whitespace, and a side of any
other variant is rendered plainly and never quoted, even when its rendering
contains whitespace. -/
theorem C8_amended (n v : ResultItem) :
    (NamedItem.mk n v).display =
      (match n with
       | .Text t => if hasWs t then "\"" ++ t ++ "\"" else t
       | _ => n.display) ++ "=" ++
      (match v with
       | .Text t => if hasWs t then "\"" ++ t ++ "\"" else t
       | _ => v.display) := by
  cases n <;> cases v <;> rfl

/-- C9 amended witness. -/
theorem C9_amended_witness :
    (resultItemFromUsize 100 = .Integer 100 ∧
      serializeVal ⟨Option.none, []⟩ (.uint 100) = .ok (.Integer 100, ⟨Option.none, []⟩)) ∧
    (resultItemFromUsize (2 ^ 63) = .Integer (((2 ^ 63 : Nat) : Int) - 2 ^ 64) ∧
      (((2 ^ 63 : Nat) : Int) - 2 ^ 64) < 0) := by
  refine ⟨?_, ?_⟩
  · exact C9_amended.1 100 (by decide)
  · exact C9_amended.2 (2 ^ 63) (by decide) (by decide)

theorem ptag_err_of_not_prefixOf {t input : List Char} (h : t.isPrefixOf input = false) :
    ptag t input = .err := by
  simp [ptag, h]

/-- C3: decoding fails exactly when the line does not start with the literal
`RESULT`; when it does, decoding always succeeds with the pairs the loop
consumed (whatever input the loop leaves is discarded, never an error), and
the loop stops as soon as one whitespace-then-pair step fails. -/
theorem C3_result_prefix_mandatory (s : String) :
    (from_string s =
      if ("RESULT".data).isPrefixOf s.data
      then Option.some (parsePairs (s.data.drop 6)) else Option.none) ∧
    (∀ l : List Char, (namedItemStep l).isOk = false → parsePairs l = []) := by
  constructor
  · unfold from_string
    by_cases hp : ("RESULT".data).isPrefixOf s.data = true
    · rw [if_pos hp]
      have h1 : ptag ("RESULT".data) s.data = .ok (s.data.drop 6) ("RESULT".data) := by
        unfold ptag
        rw [if_pos hp]
        norm_num
      rw [h1]
    · rw [if_neg hp]
      have h1 : ptag ("RESULT".data) s.data = PRes.err := by
        unfold ptag
        rw [if_neg hp]
      rw [h1]
  · intro l h
    rw [parsePairs_eq]
    cases hs : namedItemStep l with
    | ok r p => rw [hs] at h; simp [PRes.isOk] at h
    | err => rfl
    | fail => rfl

/-- C3 witness: a line with trailing garbage decodes without error, and a
failing first step yields the empty pair list. -/
theorem C3_result_prefix_mandatory_witness :
    ((namedItemStep ("@@".data)).isOk = false ∧ parsePairs ("@@".data) = []) ∧
    from_string "RESULT a=1 @@" =
      (if ("RESULT".data).isPrefixOf ("RESULT a=1 @@".data)
       then Option.some (parsePairs (("RESULT a=1 @@".data).drop 6)) else Option.none) :=
  ⟨⟨by decide, (C3_result_prefix_mandatory "RESULT a=1 @@").2 ("@@".data) (by decide)⟩,
    (C3_result_prefix_mandatory "RESULT a=1 @@").1⟩

/-- C10 counterexample: `RESULT a b=5` does decode to the single pair with
key `a b`, but the value — a trailing bare integer with no following
whitespace — decodes as `Float 5`, not `Integer 5` as the claim states. -/
theorem C10_counterexample :
    from_string "RESULT a b=5" = Option.some [("a b", .Float (.num 5))] ∧
    from_string "RESULT a b=5" ≠ Option.some [("a b", .Integer 5)] := by
  constructor
  · decide
  · decide

/-- C10 amended: an unquoted key token extends up to (but not including)
the next `=` and may contain whitespace; `RESULT a b=5` decodes to the
single pair with key `a b`, whose value — being the trailing token with no
whitespace after it — is `Float 5` rather than `Integer 5`. -/
theorem C10_amended :
    (∀ (k rest : List Char), k ≠ [] → (∀ c, k.head? = Option.some c → c ≠ '"') →
      (∀ x ∈ k, x ≠ '=') → parse_key (k ++ '=' :: rest) = .ok ('=' :: rest) k) ∧
    from_string "RESULT a b=5" = Option.some [("a b", .Float (.num 5))] := by
  refine ⟨fun k rest hne hq heq => parse_key_bare rest hne hq heq, by decide⟩

/-- C10 amended witness. -/
theorem C10_amended_witness :
    parse_key ("a b".data ++ '=' :: "5".data) = .ok ('=' :: "5".data) ("a b".data) :=
  C10_amended.1 ("a b".data) ("5".data) (by decide) (by decide) (by decide)

/-- C4 counterexample: the token `hello` is not a quoted string, not
`true`/`false`, not an integer followed by whitespace and not a float
literal, yet the fallback does not wrap it as `Text`: with no `=` later in
the input, `take_until1("=")` fails and the whole value parse fails. -/
theorem C4_counterexample : parse_value ("hello".data) = PRes.err := by decide

/-- C4 amended: for a value whose first character rules out the quoted,
boolean, integer and float alternatives (and that does not start with the
case-insensitive `nan`/`inf` tokens `double` accepts), the fallback behaves
exactly like `take_until1("=")` wrapped as `Text`: it consumes everything up
to (possibly across whitespace) the first `=` of the remaining input and
succeeds only if such an `=` exists at position ≥ 1 — otherwise the pair
fails; it is not reached at all on a hard float failure such as `5e`. -/
theorem C4_amended :
    (∀ input : List Char,
      (∀ c, input.head? = Option.some c →
        (c ≠ '"' ∧ c ≠ '+' ∧ c ≠ '-' ∧ c.isDigit = false ∧ c ≠ '.')) →
      ("true".data).isPrefixOf input = false →
      ("false".data).isPrefixOf input = false →
      noCaseIsPrefix ("nan".data) input = false →
      noCaseIsPrefix ("infinity".data) input = false →
      noCaseIsPrefix ("inf".data) input = false →
      parse_value input = pmap (take_until1 '=') (fun t => .Text ⟨t⟩) input) ∧
    (∀ (xs r : List Char), (∀ x ∈ xs, x ≠ '=') → xs ≠ [] →
      take_until1 '=' (xs ++ '=' :: r) = .ok ('=' :: r) xs) ∧
    (∀ l : List Char, (∀ x ∈ l, x ≠ '=') → take_until1 '=' l = .err) ∧
    parse_value ("5e".data) = PRes.fail := by
  refine ⟨?_, fun xs r h hne => take_until1_run r h hne,
    fun l h => take_until1_err_no_occur h, by decide⟩
  intro input h hntrue hnfalse hnan hinfy hinf
  have hq : ∀ c, input.head? = Option.some c → c ≠ '"' := fun c hc => (h c hc).1
  unfold parse_value
  rw [palt_of_err (pmap_of_err (parse_delimited_string_err hq))]
  rw [palt_of_err (pmap_of_err (by
    rw [palt_of_err (ptag_err_of_not_prefixOf hntrue)]
    exact ptag_err_of_not_prefixOf hnfalse))]
  rw [palt_of_err (pmap_of_err (by
    have hpi : pi64 input = .err := pi64_err_head (fun c hc =>
      ⟨(h c hc).2.1, (h c hc).2.2.1, (h c hc).2.2.2.1⟩)
    simp [pterminated, pbind, hpi] : pterminated pi64 (ppeek space1) input = .err))]
  rw [palt_of_err (pmap_of_err (pdouble_err_head (fun c hc =>
    ⟨(h c hc).2.1, (h c hc).2.2.1, (h c hc).2.2.2.1, (h c hc).2.2.2.2⟩) hnan hinfy hinf))]
  have hkey : parse_key input = take_until1 '=' input := by
    unfold parse_key
    rw [palt_of_err (parse_delimited_string_err hq)]
  simp [pmap, hkey]

/-- C4 amended witness. -/
theorem C4_amended_witness :
    parse_value ("ab=5".data) = pmap (take_until1 '=') (fun t => .Text ⟨t⟩) ("ab=5".data) ∧
    take_until1 '=' ("ab".data ++ '=' :: "5".data) = .ok ('=' :: "5".data) ("ab".data) ∧
    take_until1 '=' ("hello".data) = PRes.err :=
  ⟨C4_amended.1 ("ab=5".data) (by decide) (by decide) (by decide) (by decide) (by decide)
      (by decide),
    C4_amended.2.1 ("ab".data) ("5".data) (by decide) (by decide),
    C4_amended.2.2.1 ("hello".data) (by decide)⟩

/-- C1: a signed-integer token (within the `i64` range) immediately followed
by at least one whitespace character — checked by non-consuming lookahead,
so the whitespace stays in the remainder — decodes as `Integer`; the same
token with nothing after it fails the lookahead, falls through to the float
alternative, and decodes as `Float` of the same numeric value. -/
theorem C1_integer_lookahead :
    (∀ (cs rest : List Char) (c : Char), IsIntLit cs →
      i64Min ≤ intLitVal cs → intLitVal cs ≤ i64Max →
      rest.head? = Option.some c → isSpaceTab c = true →
      parse_value (cs ++ rest) = .ok rest (.Integer (intLitVal cs))) ∧
    (∀ cs : List Char, IsIntLit cs →
      parse_value cs = .ok [] (.Float (.num ((intLitVal cs : ℚ))))) := by
  constructor
  · intro cs rest c hlit hmin hmax hc hws
    exact parse_value_intlit_ws cs rest hlit c hc hws hmin hmax
  · intro cs hlit
    exact parse_value_intlit_last cs hlit

/-- C1 witness: `42` followed by a space decodes as `Integer 42` with the
space left unconsumed; a trailing `-7` decodes as `Float (-7)`. -/
theorem C1_integer_lookahead_witness :
    parse_value ("42".data ++ " x".data) = .ok (" x".data) (.Integer (intLitVal ("42".data))) ∧
    parse_value ("-7".data) = .ok [] (.Float (.num ((intLitVal ("-7".data) : ℚ)))) :=
  ⟨C1_integer_lookahead.1 ("42".data) (" x".data) ' ' (by decide) (by decide) (by decide)
      rfl (by decide),
    C1_integer_lookahead.2 ("-7".data) (by decide)⟩

/-! ### Round-trip: re-encoding decoded pairs

A decoded pair list is re-encoded as an order-preserving keyed collection:
each key is a string and each value is a `ResultItem` presented back to the
serializer through its derived `Serialize` shape (each enum variant is a
newtype variant carrying its payload; `Empty` is a unit variant; `Named`
carries the two-field `NamedItem` struct). -/
def svalOfResultItem : ResultItem → SVal
  | .Named n v => .newtypeVariant (.strct (.cons (.str "name") (svalOfResultItem n)
      (.cons (.str "value") (svalOfResultItem v) .nil)))
  | .Integer n => .newtypeVariant (.int n)
  | .Float f => .newtypeVariant (.f64 f)
  | .Boolean b => .newtypeVariant (.bool b)
  | .Character c => .newtypeVariant (.char c)
  | .Text t => .newtypeVariant (.str t)
  | .Empty => .unitVariant

def encodePairs (pairs : List (String × ResultItem)) : SVal :=
  .map (entriesOfList (pairs.map fun p => (.str p.1, svalOfResultItem p.2)))

/-- The value is one of the scalar shapes that re-encode to themselves. -/
def scalarish (v : ResultItem) : Prop :=
  (∃ b, v = .Boolean b) ∨ (∃ n, v = .Integer n) ∨ (∃ t, v = .Text t)

/-- Keys that survive a re-encode/re-decode: nonempty, quote-free, and
either whitespace-bearing (hence re-quoted) or `=`-free (hence re-read whole
as a bare key). -/
def goodKey (k : String) : Prop :=
  k.data ≠ [] ∧ (∀ x ∈ k.data, x ≠ '"') ∧
    (hasWs k = true ∨ ∀ x ∈ k.data, x ≠ '=')

/-- Values that survive a re-encode/re-decode: booleans; in-range integers
not in the final position (a trailing integer would re-decode as a float);
whitespace-bearing quote-free text (re-quoted on output). -/
def goodValue (isLast : Bool) : ResultItem → Prop
  | .Boolean _ => True
  | .Integer n => isLast = false ∧ i64Min ≤ n ∧ n ≤ i64Max
  | .Text t => hasWs t = true ∧ ∀ x ∈ t.data, x ≠ '"'
  | _ => False

def goodPairs : List (String × ResultItem) → Prop
  | [] => True
  | (k, v) :: rest => goodKey k ∧ goodValue rest.isEmpty v ∧ goodPairs rest

instance (k : String) : Decidable (goodKey k) := by
  unfold goodKey; infer_instance

instance (b : Bool) (v : ResultItem) : Decidable (goodValue b v) := by
  cases v <;> simp only [goodValue] <;> infer_instance

instance goodPairsDec : (pairs : List (String × ResultItem)) → Decidable (goodPairs pairs)
  | [] => isTrue trivial
  | (k, v) :: rest =>
    have : Decidable (goodPairs rest) := goodPairsDec rest
    by unfold goodPairs; infer_instance

theorem goodValue_scalarish {b : Bool} {v : ResultItem} (h : goodValue b v) : scalarish v := by
  cases v <;> simp only [goodValue] at h <;> first
    | exact Or.inl ⟨_, rfl⟩
    | exact Or.inr (Or.inl ⟨_, rfl⟩)
    | exact Or.inr (Or.inr ⟨_, rfl⟩)

theorem serializeVal_of_scalar (st : Structurizer) (v : ResultItem) (h : scalarish v) :
    serializeVal st (svalOfResultItem v) = .ok (st.eat v) := by
  rcases h with ⟨b, rfl⟩ | ⟨n, rfl⟩ | ⟨t, rfl⟩ <;> rfl

theorem scalarish_not_empty {v : ResultItem} (h : scalarish v) : v.is_empty = false := by
  rcases h with ⟨b, rfl⟩ | ⟨n, rfl⟩ | ⟨t, rfl⟩ <;> rfl

theorem serializeEntries_pairs : ∀ (pairs : List (String × ResultItem)) (cn : Option ResultItem)
    (out : List NamedItem), cn = Option.none →
    (∀ p ∈ pairs, scalarish p.2) →
    serializeEntries ⟨cn, out⟩
        (entriesOfList (pairs.map fun p => (.str p.1, svalOfResultItem p.2))) =
      .ok ⟨Option.none, out ++ pairs.map fun p => NamedItem.mk (.Text p.1) p.2⟩ := by
  intro pairs
  induction pairs with
  | nil => intro cn out hcn _; subst hcn; simp [entriesOfList, serializeEntries]
  | cons p rest ih =>
    intro cn out hcn hsc
    subst hcn
    obtain ⟨k, v⟩ := p
    have hv : scalarish v := hsc (k, v) (by simp)
    simp only [List.map_cons, entriesOfList, serializeEntries]
    rw [show serializeVal ⟨Option.none, out⟩ (SVal.str k) =
      .ok (.Text k, ⟨Option.none, out⟩) from rfl]
    dsimp only
    rw [serializeVal_of_scalar ⟨Option.some (.Text k), out⟩ v hv]
    rw [show Structurizer.eat ⟨Option.some (.Text k), out⟩ v =
      (.Named (.Text k) v, ⟨Option.none, out⟩) from rfl]
    dsimp only
    rw [if_pos (scalarish_not_empty hv)]
    rw [ih Option.none (out ++ [NamedItem.mk (.Text k) v]) rfl (fun q hq => hsc q (by simp [hq]))]
    simp

def renderPair (k : String) (v : ResultItem) : List Char :=
  (NamedItem.mk (.Text k) v).display.data

def renderTail (pairs : List (String × ResultItem)) : List Char :=
  pairs.foldr (fun p acc => ' ' :: (renderPair p.1 p.2 ++ acc)) []

theorem foldl_render (pairs : List (String × ResultItem)) : ∀ (s : String),
    ((pairs.map fun p => NamedItem.mk (.Text p.1) p.2).foldl
        (fun s item => s ++ " " ++ item.display) s).data =
      s.data ++ renderTail pairs := by
  induction pairs with
  | nil => intro s; simp [renderTail]
  | cons p rest ih =>
    intro s
    simp only [List.map_cons, List.foldl_cons, renderTail, List.foldr_cons]
    rw [ih]
    simp only [String.data_append]
    simp [renderPair, renderTail]

theorem to_string_pairs (pairs : List (String × ResultItem))
    (h : ∀ p ∈ pairs, scalarish p.2) :
    ∃ line : String, to_string (encodePairs pairs) = .ok line ∧
      line.data = ("RESULT".data) ++ renderTail pairs := by
  refine ⟨(pairs.map fun p => NamedItem.mk (.Text p.1) p.2).foldl
      (fun s item => s ++ " " ++ item.display) "RESULT", ?_, ?_⟩
  · unfold to_string encodePairs
    simp only [serializeVal]
    rw [serializeEntries_pairs pairs Option.none [] rfl h]
    simp
  · simpa using foldl_render pairs "RESULT"

/-! ### Re-decoding the rendered line -/

def keyRender (k : String) : List Char :=
  if hasWs k then '"' :: (k.data ++ ['"']) else k.data

def valRender : ResultItem → List Char
  | .Boolean b => if b then "true".data else "false".data
  | .Integer n => intDisplay n
  | .Text t => if hasWs t then '"' :: (t.data ++ ['"']) else t.data
  | v => v.display.data

theorem renderPair_eq (k : String) (v : ResultItem) :
    renderPair k v = keyRender k ++ '=' :: valRender v := by
  cases v with
  | Text t =>
    by_cases hk : hasWs k <;> by_cases ht : hasWs t <;>
      simp [renderPair, NamedItem.display, ResultItem.display, keyRender, valRender,
        hk, ht, String.data_append]
  | Boolean b =>
    cases b <;> by_cases hk : hasWs k <;>
      simp [renderPair, NamedItem.display, ResultItem.display, keyRender, valRender,
        hk, String.data_append]
  | Integer n =>
    by_cases hk : hasWs k <;>
      simp [renderPair, NamedItem.display, ResultItem.display, keyRender, valRender,
        hk, String.data_append]
  | Float f =>
    by_cases hk : hasWs k <;>
      simp [renderPair, NamedItem.display, ResultItem.display, keyRender, valRender,
        hk, String.data_append]
  | Character c =>
    by_cases hk : hasWs k <;>
      simp [renderPair, NamedItem.display, ResultItem.display, keyRender, valRender,
        hk, String.data_append]
  | Empty =>
    by_cases hk : hasWs k <;>
      simp [renderPair, NamedItem.display, ResultItem.display, keyRender, valRender,
        hk, String.data_append]
  | Named a b =>
    by_cases hk : hasWs k <;>
      simp [renderPair, NamedItem.display, ResultItem.display, keyRender, valRender,
        hk, String.data_append]

theorem head?_mem {l : List Char} {c : Char} (h : l.head? = Option.some c) : c ∈ l := by
  cases l with
  | nil => cases h
  | cons x xs => cases h; simp

theorem hasWs_ne_nil {t : String} (h : hasWs t = true) : t.data ≠ [] := by
  simp only [hasWs, List.any_eq_true] at h
  obtain ⟨c, hc, _⟩ := h
  intro hnil
  rw [hnil] at hc
  cases hc

theorem isSpaceTab_rustWs {c : Char} (h : isSpaceTab c = true) : rustIsWhitespace c = true := by
  simp only [isSpaceTab, Bool.or_eq_true, beq_iff_eq] at h
  rcases h with rfl | rfl <;> decide

theorem not_hasWs_chars {k : String} (h : hasWs k = false) :
    ∀ c ∈ k.data, rustIsWhitespace c = false := by
  intro c hc
  by_contra hw
  have : hasWs k = true := by
    simp only [hasWs, List.any_eq_true]
    exact ⟨c, hc, by simpa using hw⟩
  rw [this] at h
  cases h

theorem keyRender_ne_nil {k : String} (hk : goodKey k) : keyRender k ≠ [] := by
  unfold keyRender
  split
  · simp
  · exact hk.1

theorem keyRender_head_not_spacetab {k : String} (_hk : goodKey k) :
    ∀ c, (keyRender k).head? = Option.some c → isSpaceTab c = false := by
  intro c hc
  unfold keyRender at hc
  split at hc
  · cases hc
    decide
  · next hw =>
    have hmem := head?_mem hc
    have hnw := not_hasWs_chars (by simpa using hw) c hmem
    by_contra hst
    rw [isSpaceTab_rustWs (by simpa using hst)] at hnw
    cases hnw

theorem parse_key_render {k : String} (hk : goodKey k) (rest : List Char) :
    parse_key (keyRender k ++ '=' :: rest) = .ok ('=' :: rest) k.data := by
  unfold keyRender
  by_cases hw : hasWs k
  · rw [if_pos hw]
    have hassoc : ('"' :: (k.data ++ ['"'])) ++ '=' :: rest =
        '"' :: (k.data ++ '"' :: ('=' :: rest)) := by simp
    rw [hassoc]
    exact parse_key_quoted _ hk.1 hk.2.1
  · rw [if_neg hw]
    have heqk : ∀ x ∈ k.data, x ≠ '=' := by
      rcases hk.2.2 with h | h
      · exact absurd h (by simpa using hw)
      · exact h
    exact parse_key_bare rest hk.1
      (fun c hc => hk.2.1 c (head?_mem hc)) heqk

theorem intDisplay_intLit (n : Int) (hmin : i64Min ≤ n) (hmax : n ≤ i64Max) :
    IsIntLit (intDisplay n) ∧ intLitVal (intDisplay n) = n ∧
      i64Min ≤ intLitVal (intDisplay n) ∧ intLitVal (intDisplay n) ≤ i64Max := by
  obtain ⟨hd, hv, hne⟩ := natToDigits_spec n.natAbs
  by_cases hn : n < 0
  · have hsplit : splitSign (intDisplay n) = (false, natToDigits n.natAbs) := by
      unfold intDisplay
      rw [if_pos hn]
      rfl
    have hlit : IsIntLit (intDisplay n) := by
      unfold IsIntLit
      rw [hsplit]
      exact ⟨hne, hd⟩
    have hval : intLitVal (intDisplay n) = n := by
      unfold intLitVal
      rw [hsplit]
      simp only [Bool.false_eq_true, if_false, hv]
      omega
    exact ⟨hlit, hval, by omega, by omega⟩
  · have hhd : ∃ d ds, natToDigits n.natAbs = d :: ds ∧ d.isDigit = true := by
      cases hds : natToDigits n.natAbs with
      | nil => exact absurd hds hne
      | cons d ds => exact ⟨d, ds, rfl, by rw [hds] at hd; exact hd d (by simp)⟩
    obtain ⟨d, ds, hds, hdd⟩ := hhd
    have hsplit : splitSign (intDisplay n) = (true, natToDigits n.natAbs) := by
      unfold intDisplay
      rw [if_neg hn, splitSign_eq, hds]
      have h1 : d ≠ '+' := isDigit_ne hdd (by decide)
      have h2 : d ≠ '-' := isDigit_ne hdd (by decide)
      simp [h1, h2]
    have hlit : IsIntLit (intDisplay n) := by
      unfold IsIntLit
      rw [hsplit]
      exact ⟨hne, hd⟩
    have hval : intLitVal (intDisplay n) = n := by
      unfold intLitVal
      rw [hsplit]
      simp only [if_true, hv]
      omega
    exact ⟨hlit, hval, by omega, by omega⟩

theorem namedItemStep_render (k : String) (v : ResultItem) (tail : List Char)
    (hk : goodKey k)
    (hval : parse_value (valRender v ++ tail) = .ok tail v) :
    namedItemStep (' ' :: (renderPair k v ++ tail)) = .ok tail (k, v) := by
  have hhead : ∀ c, (renderPair k v ++ tail).head? = Option.some c → isSpaceTab c = false := by
    intro c hc
    rw [renderPair_eq] at hc
    have hkr := keyRender_ne_nil hk
    rw [show (keyRender k ++ '=' :: valRender v) ++ tail =
      keyRender k ++ ('=' :: valRender v ++ tail) by simp] at hc
    rw [List.head?_append_of_ne_nil _ hkr] at hc
    exact keyRender_head_not_spacetab hk c hc
  unfold namedItemStep ppreceded pbind
  rw [show (' ' :: (renderPair k v ++ tail)) = [' '] ++ (renderPair k v ++ tail) from rfl]
  rw [space1_run (renderPair k v ++ tail) (by decide) (by decide) hhead]
  dsimp only
  rw [renderPair_eq]
  rw [show (keyRender k ++ '=' :: valRender v) ++ tail =
    keyRender k ++ '=' :: (valRender v ++ tail) by simp]
  unfold parse_named_item pmap pseparated_pair pbind
  rw [parse_key_render hk (valRender v ++ tail)]
  dsimp only
  rw [pchar_cons_self]
  dsimp only
  rw [pmap_of_ok hval]

theorem parse_value_render_last {v : ResultItem} (hv : goodValue true v) :
    parse_value (valRender v ++ []) = .ok [] v := by
  cases v with
  | Boolean b =>
    cases b
    · simpa using parse_value_false []
    · simpa using parse_value_true []
  | Text t =>
    obtain ⟨hw, hq⟩ := hv
    simp only [valRender, hw, if_true]
    rw [show ('"' :: (t.data ++ ['"'])) ++ [] = '"' :: (t.data ++ '"' :: []) by simp]
    rw [parse_value_quoted [] (hasWs_ne_nil hw) hq]
  | Integer n => exact absurd hv.1 (by simp)
  | Named a b => exact absurd hv (by simp [goodValue])
  | Float f => exact absurd hv (by simp [goodValue])
  | Character c => exact absurd hv (by simp [goodValue])
  | Empty => exact absurd hv (by simp [goodValue])

theorem parse_value_render_mid {v : ResultItem} (tail : List Char) (hv : goodValue false v) :
    parse_value (valRender v ++ (' ' :: tail)) = .ok (' ' :: tail) v := by
  cases v with
  | Boolean b =>
    cases b
    · exact parse_value_false (' ' :: tail)
    · exact parse_value_true (' ' :: tail)
  | Text t =>
    obtain ⟨hw, hq⟩ := hv
    simp only [valRender, hw, if_true]
    rw [show ('"' :: (t.data ++ ['"'])) ++ (' ' :: tail) =
      '"' :: (t.data ++ '"' :: (' ' :: tail)) by simp]
    rw [parse_value_quoted (' ' :: tail) (hasWs_ne_nil hw) hq]
  | Integer n =>
    obtain ⟨-, hmin, hmax⟩ := hv
    obtain ⟨hlit, hval, hmin', hmax'⟩ := intDisplay_intLit n hmin hmax
    have := parse_value_intlit_ws (intDisplay n) (' ' :: tail) hlit ' ' rfl (by decide)
      hmin' hmax'
    rw [hval] at this
    exact this
  | Named a b => exact absurd hv (by simp [goodValue])
  | Float f => exact absurd hv (by simp [goodValue])
  | Character c => exact absurd hv (by simp [goodValue])
  | Empty => exact absurd hv (by simp [goodValue])

theorem parsePairs_render : ∀ pairs, goodPairs pairs → parsePairs (renderTail pairs) = pairs := by
  intro pairs
  induction pairs with
  | nil => intro _; decide
  | cons p rest ih =>
    intro hg
    obtain ⟨k, v⟩ := p
    obtain ⟨hk, hv, hrest⟩ := hg
    have hval : parse_value (valRender v ++ renderTail rest) = .ok (renderTail rest) v := by
      cases hre : rest with
      | nil =>
        rw [hre] at hv
        simpa [renderTail] using parse_value_render_last (v := v) (by simpa using hv)
      | cons q qs =>
        rw [hre] at hv
        have : renderTail (q :: qs) = ' ' :: (renderPair q.1 q.2 ++ renderTail qs) := rfl
        rw [this]
        exact parse_value_render_mid _ (by simpa using hv)
    rw [show renderTail ((k, v) :: rest) = ' ' :: (renderPair k v ++ renderTail rest) from rfl]
    rw [parsePairs_eq]
    rw [namedItemStep_render k v (renderTail rest) hk hval]
    dsimp only
    rw [ih hrest]

theorem goodPairs_scalarish : ∀ pairs, goodPairs pairs → ∀ p ∈ pairs, scalarish p.2 := by
  intro pairs
  induction pairs with
  | nil => intro _ p hp; cases hp
  | cons q rest ih =>
    intro hg p hp
    obtain ⟨k, v⟩ := q
    obtain ⟨hk, hv, hrest⟩ := hg
    rcases List.mem_cons.mp hp with rfl | hp'
    · exact goodValue_scalarish hv
    · exact ih hrest p hp'

/-- C2 counterexample: decoding `RESULT a="true"` yields the pair
`("a", Text "true")`, whose value is quote-free text; re-encoding renders
the text unquoted (it has no whitespace), and re-decoding the result yields
`("a", Boolean true)` — a different set of pairs, so decode–encode–decode is
not idempotent for all quote-free text values. -/
theorem C2_counterexample :
    from_string "RESULT a=\"true\"" = Option.some [("a", .Text "true")] ∧
    to_string (encodePairs [("a", .Text "true")]) = .ok "RESULT a=true" ∧
    from_string "RESULT a=true" = Option.some [("a", .Boolean true)] := by
  refine ⟨by decide, by decide, by decide⟩

/-- C2 amended: for a successfully decoded list of pairs in which every key
is nonempty, quote-free, and either whitespace-bearing or `=`-free, and
every value is a Boolean, a whitespace-bearing quote-free Text, or an
in-range Integer not in the final position, re-encoding the pairs as an
order-preserving keyed collection and re-decoding the rendered line yields
the same list of pairs. -/
theorem C2_roundtrip (s : String) (pairs : List (String × ResultItem))
    (_hdec : from_string s = Option.some pairs) (hgood : goodPairs pairs) :
    ∃ line : String, to_string (encodePairs pairs) = .ok line ∧
      from_string line = Option.some pairs := by
  obtain ⟨line, hline, hdata⟩ := to_string_pairs pairs (goodPairs_scalarish pairs hgood)
  refine ⟨line, hline, ?_⟩
  unfold from_string
  have hptag : ptag ("RESULT".data) line.data = .ok (renderTail pairs) ("RESULT".data) := by
    rw [hdata]
    exact ptag_run _ _
  rw [hptag]
  dsimp only
  rw [parsePairs_render pairs hgood]

/-- C2 amended witness: a three-pair line (integer, whitespace text,
boolean) decodes, satisfies the side conditions, and survives the
re-encode/re-decode round trip. -/
theorem C2_roundtrip_witness :
    from_string "RESULT n=5 a=\"x y\" flag=true" =
      Option.some [("n", .Integer 5), ("a", .Text "x y"), ("flag", .Boolean true)] ∧
    goodPairs [("n", .Integer 5), ("a", .Text "x y"), ("flag", .Boolean true)] ∧
    ∃ line : String,
      to_string (encodePairs [("n", .Integer 5), ("a", .Text "x y"), ("flag", .Boolean true)]) =
        .ok line ∧
      from_string line =
        Option.some [("n", .Integer 5), ("a", .Text "x y"), ("flag", .Boolean true)] :=
  ⟨by decide, by decide,
    C2_roundtrip "RESULT n=5 a=\"x y\" flag=true" _ (by decide) (by decide)⟩
